import Mathlib

/-! Doubly linked list (`src/Algos/DoubleyLinkedList/index.js`).

Shallow embedding of the `DLLNode` / `DoublyLinkedList` classes.

* Objects live in a store; a reference is an index into the store and `none`
  is JavaScript `null`.  `new DLLNode(data)` appends a node to the store.
* A method is a function from the list state to a result and the state the
  call leaves behind.  A property access on `null` raises a `TypeError`; the
  state at that moment is kept, as a JavaScript caller would observe it.
* `while` loops recurse on a fuel argument; running out of fuel is reported
  as its own fault and is never a value.
* Node data are compared with `==` in the source; the embedding compares
  values of a type with decidable equality.
-/

/-- One `DLLNode` object: `data`, `next`, `prev`. -/
structure DLLNode (α : Type) where
  data : α
  next : Option Nat
  prev : Option Nat
deriving DecidableEq, Repr

/-- The `DoublyLinkedList` object (`head`, `tail`) with the store its nodes live in. -/
structure DoublyLinkedList (α : Type) where
  store : List (DLLNode α)
  head : Option Nat
  tail : Option Nat
deriving DecidableEq, Repr

/-- Ways a call can fail to return: a JavaScript `TypeError` (property access on `null`) or
`ReferenceError` (use of a name nothing declares), a reference outside the store, or fuel
running out. -/
inductive Fault where
  | typeError
  | referenceError
  | invalidRef
  | outOfFuel
deriving DecidableEq, Repr

/-- Result of running a piece of code: a value, or a fault. -/
inductive Result (β : Type) where
  | ok (v : β)
  | fault (f : Fault)
deriving DecidableEq, Repr

/-- JavaScript values the methods return. -/
inductive Ret (α : Type) where
  | null
  | undefined
  | bool (b : Bool)
  | data (v : α)
  | this
  | array (vs : List α)
deriving DecidableEq, Repr

/-- Code acting on a list: the result together with the state left behind. -/
def Exec (α β : Type) : Type := DoublyLinkedList α → Result β × DoublyLinkedList α

namespace Exec

variable {α β γ : Type}

/-- Finish with a value. -/
def ret (v : β) : Exec α β := fun s => (Result.ok v, s)

/-- Raise a fault; the state stays as it is. -/
def raise (f : Fault) : Exec α β := fun s => (Result.fault f, s)

/-- Sequencing: a fault stops the rest, keeping the state reached so far. -/
def andThen (m : Exec α β) (f : β → Exec α γ) : Exec α γ := fun s =>
  match m s with
  | (Result.ok v, s1) => f v s1
  | (Result.fault e, s1) => (Result.fault e, s1)

instance : Monad (Exec α) where
  pure := ret
  bind := andThen

/-- Read `this.head`. -/
def getHead : Exec α (Option Nat) := fun s => (Result.ok s.head, s)

/-- Read `this.tail`. -/
def getTail : Exec α (Option Nat) := fun s => (Result.ok s.tail, s)

/-- Assign `this.head = v`. -/
def setHead (v : Option Nat) : Exec α Unit := fun s => (Result.ok (), { s with head := v })

/-- Assign `this.tail = v`. -/
def setTail (v : Option Nat) : Exec α Unit := fun s => (Result.ok (), { s with tail := v })

/-- Allocate `new DLLNode(data)`: `next` and `prev` start as `null`. -/
def newNode (data : α) : Exec α (Option Nat) := fun s =>
  (Result.ok (some s.store.length),
    { s with store := s.store ++ [{ data := data, next := none, prev := none }] })

/-- Read the fields of the object `x` refers to; `null` raises a `TypeError`. -/
def node (x : Option Nat) : Exec α (DLLNode α) := fun s =>
  match x with
  | none => (Result.fault Fault.typeError, s)
  | some a =>
    match s.store[a]? with
    | some n => (Result.ok n, s)
    | none => (Result.fault Fault.invalidRef, s)

/-- Assign `x.next = v`; `null` raises a `TypeError`. -/
def setNext (x : Option Nat) (v : Option Nat) : Exec α Unit := fun s =>
  match x with
  | none => (Result.fault Fault.typeError, s)
  | some a =>
    match s.store[a]? with
    | some n => (Result.ok (), { s with store := s.store.set a { n with next := v } })
    | none => (Result.fault Fault.invalidRef, s)

/-- Assign `x.prev = v`; `null` raises a `TypeError`. -/
def setPrev (x : Option Nat) (v : Option Nat) : Exec α Unit := fun s =>
  match x with
  | none => (Result.fault Fault.typeError, s)
  | some a =>
    match s.store[a]? with
    | some n => (Result.ok (), { s with store := s.store.set a { n with prev := v } })
    | none => (Result.fault Fault.invalidRef, s)

end Exec

namespace DoublyLinkedList

open Exec

variable {α : Type}

/-- The list `new DoublyLinkedList()` builds: `head = null`, `tail = null`. -/
def empty : DoublyLinkedList α := { store := [], head := none, tail := none }

/-- Source `isEmpty()`: `return this.head === null`. -/
def isEmpty : Exec α Bool := do
  let h ← getHead
  pure (decide (h = none))

/-- The `while (runner)` loop of `insertAfter`, scanning from the tail through `prev`.
Falling out of the loop ends the method without a `return`: the call yields `undefined`. -/
def insertAfterLoop [DecidableEq α] (targetVal : α) (afterNode : Option Nat) :
    Nat → Option Nat → Exec α (Ret α)
  | 0, _ => raise Fault.outOfFuel
  | _ + 1, none => pure Ret.undefined
  | fuel + 1, some r => do
    let rn ← node (some r)
    if rn.data = targetVal then do
      let t ← getTail
      (if some r = t then setTail afterNode else pure ())
      setPrev afterNode (some r)
      let rn1 ← node (some r)
      setNext afterNode rn1.next
      let rn2 ← node (some r)
      setPrev rn2.next afterNode
      setNext (some r) afterNode
      pure (Ret.bool true)
    else
      insertAfterLoop targetVal afterNode fuel rn.prev

/-- Source `insertAfter(targetVal, newVal)`. -/
def insertAfter [DecidableEq α] (fuel : Nat) (targetVal newVal : α) : Exec α (Ret α) := do
  let e ← isEmpty
  if e then
    pure (Ret.bool false)
  else do
    let afterNode ← newNode newVal
    let runner ← getTail
    insertAfterLoop targetVal afterNode fuel runner

/-- Source `insertBefore(targetVal, newVal) {}`: the body is empty. -/
def insertBefore (_targetVal _newVal : α) : Exec α (Ret α) :=
  pure Ret.undefined

/-- Source `insertAtFront(data)`. -/
def insertAtFront (data : α) : Exec α (Ret α) := do
  let newNode ← newNode data
  let e ← isEmpty
  if e then do
    setHead newNode
    setTail newNode
    pure Ret.this
  else do
    let oldHead ← getHead
    setPrev oldHead newNode
    setNext newNode oldHead
    setHead newNode
    pure Ret.this

/-- Source `insertAtBack(data)`. -/
def insertAtBack (data : α) : Exec α (Ret α) := do
  let newNode ← newNode data
  let e ← isEmpty
  if e then do
    setHead newNode
    setTail newNode
    pure Ret.this
  else do
    let oldTail ← getTail
    setNext oldTail newNode
    setPrev newNode oldTail
    setTail newNode
    pure Ret.this

/-- The `while (leftPointer.next !== rightPointer.prev)` loop of `removeMiddleNode`;
yields the two pointers the loop ends with. -/
def removeMiddleLoop : Nat → Option Nat → Option Nat → Exec α (Option Nat × Option Nat)
  | 0, _, _ => raise Fault.outOfFuel
  | fuel + 1, leftPointer, rightPointer => do
    let l ← node leftPointer
    let r ← node rightPointer
    if l.next ≠ r.prev then do
      let leftPointer1 := l.next
      let l1 ← node leftPointer1
      let r1 ← node rightPointer
      if l1.next ≠ r1.prev then
        removeMiddleLoop fuel leftPointer1 r1.prev
      else
        removeMiddleLoop fuel leftPointer1 rightPointer
    else
      pure (leftPointer, rightPointer)

/-- Source `removeMiddleNode()`. -/
def removeMiddleNode (fuel : Nat) : Exec α (Ret α) := do
  let e ← isEmpty
  if e then
    pure Ret.null
  else do
    let h ← getHead
    let t ← getTail
    if h = t then do
      let hn ← node h
      let returnData := hn.data
      setHead none
      setTail none
      pure (Ret.data returnData)
    else do
      let hn ← node h
      if hn.next = t then do
        let tn ← node t
        let returnData := tn.data
        setNext h none
        setTail h
        pure (Ret.data returnData)
      else do
        let (leftPointer, rightPointer) ← removeMiddleLoop fuel h t
        let l ← node leftPointer
        let m ← node l.next
        let returnData := m.data
        setNext leftPointer rightPointer
        setPrev rightPointer leftPointer
        pure (Ret.data returnData)

/-- The `while (runner)` loop of `toArray`, pushing onto `vals`. -/
def toArrayLoop : Nat → List α → Option Nat → Exec α (Ret α)
  | 0, _, _ => raise Fault.outOfFuel
  | _ + 1, vals, none => pure (Ret.array vals)
  | fuel + 1, vals, some r => do
    let rn ← node (some r)
    toArrayLoop fuel (vals ++ [rn.data]) rn.next

/-- Source `toArray()`. -/
def toArray (fuel : Nat) : Exec α (Ret α) := do
  let runner ← getHead
  toArrayLoop fuel [] runner

/-- Source `insertAtBackMany(items)`: `items.forEach(item => this.insertAtBack(item))`,
then `return this`. -/
def insertAtBackMany : List α → Exec α (Ret α)
  | [] => pure Ret.this
  | item :: items => do
    let _ ← insertAtBack item
    insertAtBackMany items

end DoublyLinkedList

/-! ## Specification vocabulary -/

/-- References met walking from `start` through `next` until `null`. -/
def forward {α : Type} : Nat → List (DLLNode α) → Option Nat → Option (List Nat)
  | 0, _, _ => none
  | _ + 1, _, none => some []
  | fuel + 1, st, some a =>
    match st[a]? with
    | none => none
    | some n => (forward fuel st n.next).map (fun as => a :: as)

/-- References met walking from `start` through `prev` until `null`. -/
def backward {α : Type} : Nat → List (DLLNode α) → Option Nat → Option (List Nat)
  | 0, _, _ => none
  | _ + 1, _, none => some []
  | fuel + 1, st, some a =>
    match st[a]? with
    | none => none
    | some n => (backward fuel st n.prev).map (fun as => a :: as)

/-- The head/tail invariant: the walk from `head` through `next` ends at `null`, the walk
from `tail` through `prev` ends at `null`, and the second meets exactly the nodes of the
first in reverse order.  With an empty walk both `head` and `tail` are `null`; otherwise the
forward walk starts at `head` and ends at `tail`, `tail.next` is `null` and `head.prev` is
`null`. -/
def WellFormed {α : Type} (s : DoublyLinkedList α) : Prop :=
  (forward (s.store.length + 1) s.store s.head).isSome = true ∧
  backward (s.store.length + 1) s.store s.tail =
    (forward (s.store.length + 1) s.store s.head).map List.reverse

instance {α : Type} (s : DoublyLinkedList α) : Decidable (WellFormed s) := by
  unfold WellFormed
  infer_instance

/-- The reference before position `i` of `as`; `null` before the first. -/
def prevAt (as : List Nat) : Nat → Option Nat
  | 0 => none
  | i + 1 => as[i]?

/-- Representation: the list is made of the nodes `as`, in order, holding the values `L`. -/
structure Linked {α : Type} (s : DoublyLinkedList α) (as : List Nat) (L : List α) : Prop where
  nodup : as.Nodup
  len : L.length = as.length
  head : s.head = as.head?
  tail : s.tail = as.getLast?
  cell : ∀ i a v, as[i]? = some a → L[i]? = some v →
    s.store[a]? = some (DLLNode.mk v as[i + 1]? (prevAt as i))



/-! ## Sample lists

The states `insertAtBackMany` builds from an empty list, written out node by node. -/

/-- The list holding `7`. -/
def sampleOne : DoublyLinkedList Int :=
  { store := [DLLNode.mk 7 none none], head := some 0, tail := some 0 }

/-- The list holding `1, 2, 3, 4`. -/
def sampleFour : DoublyLinkedList Int :=
  { store := [DLLNode.mk 1 (some 1) none, DLLNode.mk 2 (some 2) (some 0),
      DLLNode.mk 3 (some 3) (some 1), DLLNode.mk 4 none (some 2)],
    head := some 0, tail := some 3 }

/-- The list holding `1, 2, 3, 4, 5`. -/
def sampleFive : DoublyLinkedList Int :=
  { store := [DLLNode.mk 1 (some 1) none, DLLNode.mk 2 (some 2) (some 0),
      DLLNode.mk 3 (some 3) (some 1), DLLNode.mk 4 (some 4) (some 2),
      DLLNode.mk 5 none (some 3)],
    head := some 0, tail := some 4 }

/-- Source `secondThreeList`: the list `insertAtBackMany([4, 5, 6])` builds. -/
def secondThreeList : DoublyLinkedList Int :=
  { store := [DLLNode.mk 4 (some 1) none, DLLNode.mk 5 (some 2) (some 0),
      DLLNode.mk 6 none (some 1)],
    head := some 0, tail := some 2 }

/-! ## Stacks and queues (`src/Algos/StacskandQueues/queue.js`)

The array behind a queue is a list; the values it holds and the methods hand back are
JavaScript values, `undefined` among them.  Strict equality `===` / `!==` is equality of
these values.  Counted loops recurse on fuel and check their condition at every step. -/

/-- A JavaScript value a queue or stack holds or hands back: `undefined`, or a value of `α`. -/
inductive Val (α : Type) where
  | undefined
  | of (a : α)
deriving DecidableEq, Repr

namespace Result

/-- Sequencing of results: a fault stops the rest. -/
def andThen {β γ : Type} (m : Result β) (f : β → Result γ) : Result γ :=
  match m with
  | Result.ok v => f v
  | Result.fault e => Result.fault e

instance : Monad Result where
  pure := Result.ok
  bind := Result.andThen

end Result

/-- Modelled from the spec: the class `Stack` of `./stack` that `queue.js` requires is not
among the sources.  A last-in-first-out store over an array: `push` adds on top, `pop`
removes and hands back the top, `undefined` when there is none. -/
structure Stack (α : Type) where
  items : List (Val α)
deriving DecidableEq, Repr

namespace Stack

variable {α : Type}

/-- Modelled from the spec: `new Stack()`, with nothing on it. -/
def new : Stack α := { items := [] }

/-- Modelled from the spec: `push(item)` puts `item` on top. -/
def push (item : Val α) (st : Stack α) : Stack α := { items := st.items ++ [item] }

/-- Modelled from the spec: `pop()` removes the top item and hands it back, `undefined` on an
empty stack. -/
def pop (st : Stack α) : Val α × Stack α :=
  (st.items.getLast?.getD Val.undefined, { items := st.items.dropLast })

end Stack

/-- The array `Queue`: `this.items`. -/
structure Queue (α : Type) where
  items : List (Val α)
deriving DecidableEq, Repr

namespace Queue

variable {α : Type}

/-- The queue `new Queue()` builds. -/
def new : Queue α := { items := [] }

/-- Source `enqueue(item)`: `this.items.push(item); return this.items.length`. -/
def enqueue (item : Val α) (q : Queue α) : Nat × Queue α :=
  ((q.items ++ [item]).length, { items := q.items ++ [item] })

/-- The loop `for (let i = 0; i < this.items.length - 1; i++) this.items[i] = this.items[i + 1]`
of `dequeue`, from the index `i` on.  Reading past the end of an array gives `undefined`. -/
def dequeueLoop : Nat → Nat → List (Val α) → Result (List (Val α))
  | 0, _, _ => Result.fault Fault.outOfFuel
  | fuel + 1, i, items =>
    if (i : Int) < (items.length : Int) - 1 then
      dequeueLoop fuel (i + 1) (items.set i (items.getD (i + 1) Val.undefined))
    else
      Result.ok items

/-- Source `dequeue()`.  The loop gets one step of fuel per item and one more. -/
def dequeue (q : Queue α) : Result (Val α × Queue α) :=
  if q.items.length = 0 then
    pure (Val.undefined, q)
  else do
    let returnData := q.items.getD 0 Val.undefined
    let items ← dequeueLoop (q.items.length + 1) 0 q.items
    pure (returnData, { items := items.dropLast })

/-- The commented-out `dequeue() { return this.items.shift(); }`: `shift` removes the first
item and hands it back, `undefined` on an empty array. -/
def dequeueShift (q : Queue α) : Val α × Queue α :=
  match q.items with
  | [] => (Val.undefined, q)
  | x :: rest => (x, { items := rest })

/-- Source `front()`. -/
def front (q : Queue α) : Val α :=
  if q.items.length = 0 then Val.undefined else q.items.getD 0 Val.undefined

/-- Source `isEmpty()`: `this.items.length === 0 ? true : false`. -/
def isEmpty (q : Queue α) : Bool :=
  if q.items.length = 0 then true else false

/-- Source `size()`. -/
def size (q : Queue α) : Nat := q.items.length

/-- The `while (count < len)` loop of `compareQueues`; yields `isEqual` and both queues. -/
def compareLoop [DecidableEq α] :
    Nat → Nat → Nat → Bool → Queue α → Queue α → Result (Bool × Queue α × Queue α)
  | 0, _, _, _, _, _ => Result.fault Fault.outOfFuel
  | fuel + 1, count, len, isEqual, q1, q2 =>
    if count < len then do
      let (dequeued1, q1a) ← q1.dequeue
      let (dequeued2, q2a) ← q2.dequeue
      let isEqual1 := if dequeued1 ≠ dequeued2 then false else isEqual
      let q1b := (q1a.enqueue dequeued1).2
      let q2b := (q2a.enqueue dequeued2).2
      compareLoop fuel (count + 1) len isEqual1 q1b q2b
    else
      pure (isEqual, q1, q2)

/-- Source `compareQueues(q2)` for two distinct queue objects; yields the boolean and the two
queues as the call leaves them. -/
def compareQueues [DecidableEq α] (q1 q2 : Queue α) : Result (Bool × Queue α × Queue α) :=
  if q1.size ≠ q2.size then
    pure (false, q1, q2)
  else
    let count := 0
    let isEqual := true
    let len := q1.size
    compareLoop (len + 1) count len isEqual q1 q2

/-- The first `for (let i = 0; i < len; i++)` loop of `isPalindrome`: every item goes onto the
stack and back to the end of the queue. -/
def palindromeFill : Nat → Nat → Nat → Stack α → Queue α → Result (Stack α × Queue α)
  | 0, _, _, _, _ => Result.fault Fault.outOfFuel
  | fuel + 1, i, len, stack, q =>
    if i < len then do
      let (dequeued, qa) ← q.dequeue
      let stack1 := stack.push dequeued
      let qb := (qa.enqueue dequeued).2
      palindromeFill fuel (i + 1) len stack1 qb
    else
      pure (stack, q)

/-- The second `for (let i = 0; i < len; i++)` loop of `isPalindrome`: every item is compared
with what comes off the stack. -/
def palindromeCheck [DecidableEq α] :
    Nat → Nat → Nat → Bool → Stack α → Queue α → Result (Bool × Queue α)
  | 0, _, _, _, _, _ => Result.fault Fault.outOfFuel
  | fuel + 1, i, len, isPalin, stack, q =>
    if i < len then do
      let (dequeued, qa) ← q.dequeue
      let (popped, stack1) := stack.pop
      let isPalin1 := if popped ≠ dequeued then false else isPalin
      let qb := (qa.enqueue dequeued).2
      palindromeCheck fuel (i + 1) len isPalin1 stack1 qb
    else
      pure (isPalin, q)

/-- Source `isPalindrome()`; yields the boolean and the queue as the call leaves it. -/
def isPalindrome [DecidableEq α] (q : Queue α) : Result (Bool × Queue α) := do
  let isPalin := true
  let stack : Stack α := Stack.new
  let len := q.size
  let (stack1, q1) ← palindromeFill (len + 1) 0 len stack q
  palindromeCheck (len + 1) 0 len isPalin stack1 q1

end Queue

/-- A JavaScript number as `isSumOfHalvesEqual` meets it: an integer a double holds exactly,
`Infinity`, `-Infinity`, or `NaN`.  `-0` is not told apart from `0`: the method only adds
numbers and compares them with `===`, and neither operation tells the two apart. -/
inductive JSNumber where
  | nan
  | int (n : Int)
  | posInf
  | negInf
deriving DecidableEq, Repr

namespace JSNumber

/-- How many times `m` is halved until it is below `2 ^ 53`; `fuel` bounds the count. -/
def halvings : Nat → Nat → Nat
  | 0, _ => 0
  | fuel + 1, m => if m < 2 ^ 53 then 0 else halvings fuel (m / 2) + 1

/-- The double nearest to the integer `x` (IEEE 754 binary64, round to nearest, ties to even),
as JavaScript `+` rounds an integer sum.  An integer of size below `2 ^ 53` is held exactly.
A larger one keeps its 53 leading bits `q`, with `e` bits dropped and rounded; when the
rounded size reaches `2 ^ 53 * 2 ^ 971 = 2 ^ 1024`, past the largest double
`(2 ^ 53 - 1) * 2 ^ 971`, the result is an infinity. -/
def roundDouble (x : Int) : JSNumber :=
  let m := x.natAbs
  if m < 2 ^ 53 then
    JSNumber.int x
  else
    let e := halvings m m
    let q := m / 2 ^ e
    let r := m % 2 ^ e
    let half := 2 ^ (e - 1)
    let q1 := if half < r ∨ (r = half ∧ q % 2 = 1) then q + 1 else q
    if 972 ≤ e ∨ (e = 971 ∧ q1 = 2 ^ 53) then
      (if x < 0 then JSNumber.negInf else JSNumber.posInf)
    else
      JSNumber.int (if x < 0 then -((q1 * 2 ^ e : Nat) : Int) else ((q1 * 2 ^ e : Nat) : Int))

/-- JavaScript `acc + dq` for a number `acc` and a queue item `dq` that is an integer or
`undefined`: the sum of two integers is rounded to a double, an infinity stays what it is,
and adding `undefined`, or adding to `NaN`, is `NaN`. -/
def add (acc : JSNumber) (dq : Val Int) : JSNumber :=
  match acc, dq with
  | JSNumber.int a, Val.of b => roundDouble (a + b)
  | JSNumber.posInf, Val.of _ => JSNumber.posInf
  | JSNumber.negInf, Val.of _ => JSNumber.negInf
  | _, _ => JSNumber.nan

/-- JavaScript `a === b` on numbers: `NaN` equals nothing. -/
def strictEq (a b : JSNumber) : Bool :=
  match a, b with
  | JSNumber.int x, JSNumber.int y => decide (x = y)
  | JSNumber.posInf, JSNumber.posInf => true
  | JSNumber.negInf, JSNumber.negInf => true
  | _, _ => false

end JSNumber

namespace Queue

/-- The loops `for (let i = 0; i < Math.floor(len/2); i++) { dq = this.dequeue(); half += dq;
this.enqueue(dq); }` of `isSumOfHalvesEqual`, with `bound = Math.floor(len/2)`. -/
def sumLoop : Nat → Nat → Nat → JSNumber → Queue Int → Result (JSNumber × Queue Int)
  | 0, _, _, _, _ => Result.fault Fault.outOfFuel
  | fuel + 1, i, bound, half, q =>
    if i < bound then do
      let (dq, qa) ← q.dequeue
      let half1 := half.add dq
      let qb := (qa.enqueue dq).2
      sumLoop fuel (i + 1) bound half1 qb
    else
      pure (half, q)

/-- Source `isSumOfHalvesEqual()` on a queue of integers; yields the boolean and the queue as
the call leaves it. -/
def isSumOfHalvesEqual (q : Queue Int) : Result (Bool × Queue Int) :=
  let len := q.size
  if len ≤ 1 then
    pure (false, q)
  else do
    let firstHalf := JSNumber.int 0
    let secondHalf := JSNumber.int 0
    let (firstHalf1, q1) ← sumLoop (len / 2 + 1) 0 (len / 2) firstHalf q
    let q2 ← (if len % 2 ≠ 0 then do
        let (odd, qa) ← q1.dequeue
        pure (qa.enqueue odd).2
      else
        pure q1)
    let (secondHalf1, q3) ← sumLoop (len / 2 + 1) 0 (len / 2) secondHalf q2
    pure (if firstHalf1.strictEq secondHalf1 then true else false, q3)

end Queue

/-- One `QueueNode` object: `data`, `next`; references are indices into the store of the
queue, `none` is `null`. -/
structure QueueNode (α : Type) where
  data : Val α
  next : Option Nat
deriving DecidableEq, Repr

/-- The `LinkedListQueue` object (`top`, `tail`, `size`) with the store its nodes live in. -/
structure LinkedListQueue (α : Type) where
  store : List (QueueNode α)
  top : Option Nat
  tail : Option Nat
  size : Int
deriving DecidableEq, Repr

namespace LinkedListQueue

variable {α : Type}

/-- The queue `new LinkedListQueue()` builds. -/
def new : LinkedListQueue α := { store := [], top := none, tail := none, size := 0 }

/-- Source `isEmpty()`: `this.top === null ? true : false`. -/
def isEmpty (q : LinkedListQueue α) : Bool :=
  if q.top = none then true else false

/-- Source `enqueue(val)`; the state at a `TypeError` is kept. -/
def enqueue (val : Val α) (q : LinkedListQueue α) : Result Int × LinkedListQueue α :=
  let newNode := q.store.length
  let q1 := { q with store := q.store ++ [QueueNode.mk val none] }
  if q1.isEmpty then
    let q2 := { q1 with top := some newNode }
    let q3 := { q2 with tail := some newNode }
    let q4 := { q3 with size := q3.size + 1 }
    (Result.ok q4.size, q4)
  else
    match q1.tail with
    | none => (Result.fault Fault.typeError, q1)
    | some t =>
      match q1.store[t]? with
      | none => (Result.fault Fault.invalidRef, q1)
      | some n =>
        let q2 := { q1 with store := q1.store.set t { n with next := some newNode } }
        let q3 := { q2 with tail := some newNode }
        let q4 := { q3 with size := q3.size + 1 }
        (Result.ok q4.size, q4)

/-- Source `dequeue()`. -/
def dequeue (q : LinkedListQueue α) : Result (Val α) × LinkedListQueue α :=
  if q.isEmpty then
    (Result.ok Val.undefined, q)
  else
    match q.top with
    | none => (Result.fault Fault.typeError, q)
    | some t =>
      match q.store[t]? with
      | none => (Result.fault Fault.invalidRef, q)
      | some n =>
        let returnData := n.data
        let q1 := { q with top := n.next }
        let q2 := { q1 with size := q1.size - 1 }
        let q3 := if q2.size = 0 then { q2 with tail := none } else q2
        (Result.ok returnData, q3)

/-- Source `front()`. -/
def front (q : LinkedListQueue α) : Result (Val α) × LinkedListQueue α :=
  if q.isEmpty then
    (Result.ok Val.undefined, q)
  else
    match q.top with
    | none => (Result.fault Fault.typeError, q)
    | some t =>
      match q.store[t]? with
      | none => (Result.fault Fault.invalidRef, q)
      | some n => (Result.ok n.data, q)

end LinkedListQueue

/-- A call of one of the methods the two queue classes share. -/
inductive QueueCall (α : Type) where
  | enqueue (v : Val α)
  | dequeue
  | front
  | isEmpty

/-- What such a call returns: a number, an item or `undefined`, or a boolean. -/
inductive QueueRet (α : Type) where
  | number (n : Int)
  | value (v : Val α)
  | bool (b : Bool)
deriving DecidableEq, Repr

/-- One call on the array queue. -/
def Queue.call {α : Type} : QueueCall α → Queue α → Result (QueueRet α) × Queue α
  | QueueCall.enqueue v, q => (Result.ok (QueueRet.number (q.enqueue v).1), (q.enqueue v).2)
  | QueueCall.dequeue, q =>
    match q.dequeue with
    | Result.ok (v, q1) => (Result.ok (QueueRet.value v), q1)
    | Result.fault e => (Result.fault e, q)
  | QueueCall.front, q => (Result.ok (QueueRet.value q.front), q)
  | QueueCall.isEmpty, q => (Result.ok (QueueRet.bool q.isEmpty), q)

/-- One call on the linked queue. -/
def LinkedListQueue.call {α : Type} :
    QueueCall α → LinkedListQueue α → Result (QueueRet α) × LinkedListQueue α
  | QueueCall.enqueue v, q =>
    match q.enqueue v with
    | (Result.ok n, q1) => (Result.ok (QueueRet.number n), q1)
    | (Result.fault e, q1) => (Result.fault e, q1)
  | QueueCall.dequeue, q =>
    match q.dequeue with
    | (Result.ok v, q1) => (Result.ok (QueueRet.value v), q1)
    | (Result.fault e, q1) => (Result.fault e, q1)
  | QueueCall.front, q =>
    match q.front with
    | (Result.ok v, q1) => (Result.ok (QueueRet.value v), q1)
    | (Result.fault e, q1) => (Result.fault e, q1)
  | QueueCall.isEmpty, q => (Result.ok (QueueRet.bool q.isEmpty), q)

/-- A sequence of calls, one after the other: what each returned, and the state at the end. -/
def runCalls {κ σ ρ : Type} (step : κ → σ → Result ρ × σ) : List κ → σ → List (Result ρ) × σ
  | [], s => ([], s)
  | c :: cs, s => ((step c s).1 :: (runCalls step cs (step c s).2).1,
      (runCalls step cs (step c s).2).2)

/-- Representation of the linked queue: the nodes `as`, in order from `top`, hold `items`;
`tail` is the last of them and `size` their number. -/
structure QueueLinked {α : Type} (q : LinkedListQueue α) (as : List Nat)
    (items : List (Val α)) : Prop where
  nodup : as.Nodup
  len : items.length = as.length
  top : q.top = as.head?
  tail : q.tail = as.getLast?
  size : q.size = (items.length : Int)
  cell : ∀ i a v, as[i]? = some a → items[i]? = some v →
    q.store[a]? = some (QueueNode.mk v as[i + 1]?)

/-- The `TwoStackQueue` object: `stack1`, `stack2`. -/
structure TwoStackQueue (α : Type) where
  stack1 : Stack α
  stack2 : Stack α
deriving DecidableEq, Repr

namespace TwoStackQueue

variable {α : Type}

/-- The queue `new TwoStackQueue()` builds. -/
def new : TwoStackQueue α := { stack1 := Stack.new, stack2 := Stack.new }

/-- Source `enqueue(item) {}`: the body is empty, the call yields `undefined`. -/
def enqueue (_item : Val α) (q : TwoStackQueue α) : QueueRet α × TwoStackQueue α :=
  (QueueRet.value Val.undefined, q)

/-- Source `dequeue() {}`: the body is empty, the call yields `undefined`. -/
def dequeue (q : TwoStackQueue α) : QueueRet α × TwoStackQueue α :=
  (QueueRet.value Val.undefined, q)

end TwoStackQueue

/-! ## Singly linked list (`src/Algos/SinlgyLinkedList/index.js`) -/

/-- One `ListNode` object: `data`, `next`. -/
structure ListNode (α : Type) where
  data : α
  next : Option Nat
deriving DecidableEq, Repr

/-- The `SinglyLinkedList` object (`head`) with the store its nodes live in. -/
structure SinglyLinkedList (α : Type) where
  store : List (ListNode α)
  head : Option Nat
deriving DecidableEq, Repr

namespace SinglyLinkedList

variable {α : Type}

/-- The list `new SinglyLinkedList()` builds. -/
def new : SinglyLinkedList α := { store := [], head := none }

/-- Source `isEmpty() { retun(this.head === null) }`: the body calls `retun`, a name nothing
declares, so the call raises a `ReferenceError` and returns nothing. -/
def isEmpty (l : SinglyLinkedList α) : Result Bool × SinglyLinkedList α :=
  (Result.fault Fault.referenceError, l)

/-- The loop `while (runner.next !== null) runner = runner.next` of `insertAtBack`; yields the
runner it ends with. -/
def insertAtBackLoop : Nat → Option Nat → SinglyLinkedList α → Result (Option Nat)
  | 0, _, _ => Result.fault Fault.outOfFuel
  | _ + 1, none, _ => Result.fault Fault.typeError
  | fuel + 1, some r, l =>
    match l.store[r]? with
    | none => Result.fault Fault.invalidRef
    | some n => if n.next ≠ none then insertAtBackLoop fuel n.next l else Result.ok (some r)

/-- Source `insertAtBack(data)`; the state at a fault is kept. -/
def insertAtBack (fuel : Nat) (data : α) (l : SinglyLinkedList α) :
    Result (Ret α) × SinglyLinkedList α :=
  let newNode := l.store.length
  let l1 := { l with store := l.store ++ [ListNode.mk data none] }
  match l1.isEmpty with
  | (Result.fault e, l2) => (Result.fault e, l2)
  | (Result.ok true, l2) => (Result.ok Ret.this, { l2 with head := some newNode })
  | (Result.ok false, l2) =>
    match insertAtBackLoop fuel l2.head l2 with
    | Result.fault e => (Result.fault e, l2)
    | Result.ok none => (Result.fault Fault.typeError, l2)
    | Result.ok (some r) =>
      match l2.store[r]? with
      | none => (Result.fault Fault.invalidRef, l2)
      | some n =>
        (Result.ok Ret.this,
          { l2 with store := l2.store.set r { n with next := some newNode } })

/-- Source `insertAtBackMany(vals)`: `for (const item of vals) this.insertAtBack(item)`, then
`return this`. -/
def insertAtBackMany (fuel : Nat) :
    List α → SinglyLinkedList α → Result (Ret α) × SinglyLinkedList α
  | [], l => (Result.ok Ret.this, l)
  | item :: vals, l =>
    match insertAtBack fuel item l with
    | (Result.fault e, l1) => (Result.fault e, l1)
    | (Result.ok _, l1) => insertAtBackMany fuel vals l1

/-- The `while (runner)` loop of `toArr`, pushing onto `arr`. -/
def toArrLoop : Nat → List α → Option Nat → SinglyLinkedList α → Result (Ret α)
  | 0, _, _, _ => Result.fault Fault.outOfFuel
  | _ + 1, arr, none, _ => Result.ok (Ret.array arr)
  | fuel + 1, arr, some r, l =>
    match l.store[r]? with
    | none => Result.fault Fault.invalidRef
    | some n => toArrLoop fuel (arr ++ [n.data]) n.next l

/-- Source `toArr()`. -/
def toArr (fuel : Nat) (l : SinglyLinkedList α) : Result (Ret α) :=
  toArrLoop fuel [] l.head l

end SinglyLinkedList

/-! ## Running code step by step -/

namespace Exec

variable {α β γ : Type}

theorem bind_run (m : Exec α β) (f : β → Exec α γ) (s : DoublyLinkedList α) :
    (m >>= f) s = andThen m f s := rfl

theorem pure_run (v : β) (s : DoublyLinkedList α) :
    (pure v : Exec α β) s = (Result.ok v, s) := rfl

theorem andThen_ok {m : Exec α β} {f : β → Exec α γ} {s s1 : DoublyLinkedList α} {v : β}
    (h : m s = (Result.ok v, s1)) : andThen m f s = f v s1 := by
  simp [andThen, h]

theorem andThen_fault {m : Exec α β} {f : β → Exec α γ} {s s1 : DoublyLinkedList α} {e : Fault}
    (h : m s = (Result.fault e, s1)) : andThen m f s = (Result.fault e, s1) := by
  simp [andThen, h]

theorem node_some {s : DoublyLinkedList α} {a : Nat} {n : DLLNode α}
    (h : s.store[a]? = some n) : node (some a) s = (Result.ok n, s) := by
  simp [node, h]

theorem setNext_some {s : DoublyLinkedList α} {a : Nat} {n : DLLNode α} (v : Option Nat)
    (h : s.store[a]? = some n) :
    setNext (some a) v s
      = (Result.ok (), { s with store := s.store.set a { n with next := v } }) := by
  simp [setNext, h]

theorem setPrev_some {s : DoublyLinkedList α} {a : Nat} {n : DLLNode α} (v : Option Nat)
    (h : s.store[a]? = some n) :
    setPrev (some a) v s
      = (Result.ok (), { s with store := s.store.set a { n with prev := v } }) := by
  simp [setPrev, h]

end Exec

/-! ## Facts about the representation -/

namespace Linked

variable {α : Type} {s : DoublyLinkedList α} {as : List Nat} {L : List α}

theorem value_at (h : Linked s as L) {i a : Nat} (hi : as[i]? = some a) :
    ∃ v, L[i]? = some v := by
  have hlt : i < as.length := (List.getElem?_eq_some_iff.1 hi).1
  have : i < L.length := by rw [h.len]; exact hlt
  exact ⟨L[i], List.getElem?_eq_getElem this⟩

theorem ref_at (h : Linked s as L) {i : Nat} {v : α} (hi : L[i]? = some v) :
    ∃ a, as[i]? = some a := by
  have hlt : i < L.length := (List.getElem?_eq_some_iff.1 hi).1
  have : i < as.length := by rw [← h.len]; exact hlt
  exact ⟨as[i], List.getElem?_eq_getElem this⟩

theorem bound (h : Linked s as L) {i a : Nat} (hi : as[i]? = some a) :
    a < s.store.length := by
  obtain ⟨v, hv⟩ := h.value_at hi
  exact (List.getElem?_eq_some_iff.1 (h.cell i a v hi hv)).1

theorem inj (h : Linked s as L) {i j a : Nat} (hi : as[i]? = some a) (hj : as[j]? = some a) :
    i = j := by
  obtain ⟨hi1, hi2⟩ := List.getElem?_eq_some_iff.1 hi
  obtain ⟨hj1, hj2⟩ := List.getElem?_eq_some_iff.1 hj
  exact (List.Nodup.getElem_inj_iff h.nodup).1 (hi2.trans hj2.symm)

end Linked

/-- On a represented list the `toArray` loop started at position `i` appends the values
from `i` on. -/
theorem toArrayLoop_linked {α : Type} {s : DoublyLinkedList α} {as : List Nat} {L : List α}
    (h : Linked s as L) :
    ∀ (fuel i : Nat) (vals : List α), i ≤ as.length → as.length - i < fuel →
      DoublyLinkedList.toArrayLoop fuel vals as[i]? s
        = (Result.ok (Ret.array (vals ++ L.drop i)), s) := by
  intro fuel
  induction fuel with
  | zero => intro i vals _ hf; omega
  | succ fuel ih =>
    intro i vals hi hf
    rcases Nat.lt_or_ge i as.length with hlt | hge
    · have ha : as[i]? = some as[i] := List.getElem?_eq_getElem hlt
      obtain ⟨v, hv⟩ := h.value_at ha
      have hc := h.cell i as[i] v ha hv
      rw [ha]
      simp only [DoublyLinkedList.toArrayLoop, Exec.bind_run]
      rw [Exec.andThen_ok (Exec.node_some hc)]
      simp only []
      rw [ih (i + 1) _ hlt (by omega)]
      have : L.drop i = v :: L.drop (i + 1) := by
        have hl : i < L.length := by rw [h.len]; exact hlt
        rw [List.drop_eq_getElem_cons hl]
        congr
        rw [List.getElem?_eq_getElem hl] at hv
        exact Option.some.inj hv
      rw [this]; simp
    · have ha : as[i]? = none := List.getElem?_eq_none hge
      rw [ha]
      have : L.drop i = [] := List.drop_eq_nil_of_le (by rw [h.len]; exact hge)
      simp [DoublyLinkedList.toArrayLoop, Exec.pure_run, this]


theorem toArray_linked {α : Type} {s : DoublyLinkedList α} {as : List Nat} {L : List α}
    (h : Linked s as L) (fuel : Nat) (hf : as.length < fuel) :
    DoublyLinkedList.toArray fuel s = (Result.ok (Ret.array L), s) := by
  have := toArrayLoop_linked h fuel 0 [] (Nat.zero_le _) (by omega)
  simp only [DoublyLinkedList.toArray, Exec.bind_run]
  rw [Exec.andThen_ok (rfl : Exec.getHead s = (Result.ok s.head, s)), h.head,
    List.head?_eq_getElem?, this]
  simp

/-- With too little fuel the `toArray` loop on a represented list stops with `outOfFuel`. -/
theorem toArrayLoop_short {α : Type} {s : DoublyLinkedList α} {as : List Nat} {L : List α}
    (h : Linked s as L) :
    ∀ (fuel i : Nat) (vals : List α), i ≤ as.length → fuel ≤ as.length - i →
      DoublyLinkedList.toArrayLoop fuel vals as[i]? s = (Result.fault Fault.outOfFuel, s) := by
  intro fuel
  induction fuel with
  | zero => intro i vals _ _; rfl
  | succ fuel ih =>
    intro i vals hi hf
    have hlt : i < as.length := by omega
    have ha : as[i]? = some as[i] := List.getElem?_eq_getElem hlt
    obtain ⟨v, hv⟩ := h.value_at ha
    have hc := h.cell i as[i] v ha hv
    rw [ha]
    simp only [DoublyLinkedList.toArrayLoop, Exec.bind_run]
    rw [Exec.andThen_ok (Exec.node_some hc)]
    simp only []
    exact ih (i + 1) _ hlt (by omega)

/-- What `toArray` returns on a represented list determines the values. -/
theorem toArray_values {α : Type} {s : DoublyLinkedList α} {as : List Nat} {L L1 : List α}
    (h : Linked s as L) {fuel : Nat}
    (ht : (DoublyLinkedList.toArray fuel s).1 = Result.ok (Ret.array L1)) : L1 = L := by
  rcases Nat.lt_or_ge as.length fuel with hlt | hge
  · rw [toArray_linked h fuel hlt] at ht
    simp at ht
    exact ht.symm
  · have := toArrayLoop_short h fuel 0 [] (Nat.zero_le _) (by omega)
    simp only [DoublyLinkedList.toArray, Exec.bind_run] at ht
    rw [Exec.andThen_ok (rfl : Exec.getHead s = (Result.ok s.head, s)), h.head,
      List.head?_eq_getElem?, this] at ht
    simp at ht

theorem forward_linked {α : Type} {s : DoublyLinkedList α} {as : List Nat} {L : List α}
    (h : Linked s as L) :
    ∀ (fuel i : Nat), i ≤ as.length → as.length - i < fuel →
      forward fuel s.store as[i]? = some (as.drop i) := by
  intro fuel
  induction fuel with
  | zero => intro i _ hf; omega
  | succ fuel ih =>
    intro i hi hf
    rcases Nat.lt_or_ge i as.length with hlt | hge
    · have ha : as[i]? = some as[i] := List.getElem?_eq_getElem hlt
      obtain ⟨v, hv⟩ := h.value_at ha
      have hc := h.cell i as[i] v ha hv
      rw [ha]
      simp only [forward, hc]
      rw [ih (i + 1) hlt (by omega), List.drop_eq_getElem_cons hlt]
      rfl
    · rw [List.getElem?_eq_none hge, List.drop_eq_nil_of_le hge]
      rfl

theorem backward_linked {α : Type} {s : DoublyLinkedList α} {as : List Nat} {L : List α}
    (h : Linked s as L) :
    ∀ (fuel i : Nat), i ≤ as.length → i < fuel →
      backward fuel s.store (prevAt as i) = some (as.take i).reverse := by
  intro fuel
  induction fuel with
  | zero => intro i _ hf; omega
  | succ fuel ih =>
    intro i hi hf
    cases i with
    | zero => rfl
    | succ i =>
      have hlt : i < as.length := by omega
      have ha : as[i]? = some as[i] := List.getElem?_eq_getElem hlt
      obtain ⟨v, hv⟩ := h.value_at ha
      have hc := h.cell i as[i] v ha hv
      show backward (fuel + 1) s.store as[i]? = _
      rw [ha]
      simp only [backward, hc]
      rw [ih i (by omega) (by omega)]
      have ht : List.take (i + 1) as = List.take i as ++ [as[i]] := by
        rw [List.take_succ, ha]
        rfl
      rw [ht, List.reverse_append]
      rfl

theorem Linked.length_le {α : Type} {s : DoublyLinkedList α} {as : List Nat} {L : List α}
    (h : Linked s as L) : as.length ≤ s.store.length := by
  have hsub : as ⊆ List.range s.store.length := by
    intro a ha
    obtain ⟨i, hi, rfl⟩ := List.getElem_of_mem ha
    exact List.mem_range.2 (h.bound (List.getElem?_eq_getElem hi))
  simpa using (List.subperm_of_subset h.nodup hsub).length_le

theorem Linked.tail_eq {α : Type} {s : DoublyLinkedList α} {as : List Nat} {L : List α}
    (h : Linked s as L) : s.tail = prevAt as as.length := by
  rw [h.tail, List.getLast?_eq_getElem?]
  cases hn : as.length with
  | zero => simp [prevAt, List.length_eq_zero.1 hn]
  | succ n => simp [prevAt]

theorem Linked.wellFormed {α : Type} {s : DoublyLinkedList α} {as : List Nat} {L : List α}
    (h : Linked s as L) : WellFormed s := by
  have hl := h.length_le
  have hf := forward_linked h (s.store.length + 1) 0 (Nat.zero_le _) (by omega)
  have hb := backward_linked h (s.store.length + 1) as.length (Nat.le_refl _) (by omega)
  rw [← List.head?_eq_getElem?, ← h.head] at hf
  rw [← h.tail_eq] at hb
  unfold WellFormed
  rw [hf, hb]
  simp

/-! ## From the invariant to a representation -/

theorem forward_cons {α : Type} {st : List (DLLNode α)} {fuel a : Nat} {as : List Nat}
    (h : forward (fuel + 1) st (some a) = some as) :
    ∃ n rest, st[a]? = some n ∧ forward fuel st n.next = some rest ∧ as = a :: rest := by
  simp only [forward] at h
  cases hn : st[a]? with
  | none => simp [hn] at h
  | some n =>
    simp only [hn] at h
    cases hr : forward fuel st n.next with
    | none => simp [hr] at h
    | some rest =>
      simp only [hr, Option.map_some', Option.some.injEq] at h
      exact ⟨n, rest, rfl, hr, h.symm⟩

theorem backward_cons {α : Type} {st : List (DLLNode α)} {fuel a : Nat} {as : List Nat}
    (h : backward (fuel + 1) st (some a) = some as) :
    ∃ n rest, st[a]? = some n ∧ backward fuel st n.prev = some rest ∧ as = a :: rest := by
  simp only [backward] at h
  cases hn : st[a]? with
  | none => simp [hn] at h
  | some n =>
    simp only [hn] at h
    cases hr : backward fuel st n.prev with
    | none => simp [hr] at h
    | some rest =>
      simp only [hr, Option.map_some', Option.some.injEq] at h
      exact ⟨n, rest, rfl, hr, h.symm⟩

theorem forward_chain {α : Type} {st : List (DLLNode α)} :
    ∀ (fuel : Nat) (x : Option Nat) (as : List Nat), forward fuel st x = some as →
      x = as.head? ∧ ∀ i a, as[i]? = some a → ∃ n, st[a]? = some n ∧ n.next = as[i + 1]? := by
  intro fuel
  induction fuel with
  | zero => intro x as h; simp [forward] at h
  | succ fuel ih =>
    intro x as h
    cases x with
    | none =>
      simp only [forward, Option.some.injEq] at h
      subst h
      simp
    | some a0 =>
      obtain ⟨n, rest, hn, hr, rfl⟩ := forward_cons h
      obtain ⟨h1, h2⟩ := ih _ _ hr
      refine ⟨rfl, ?_⟩
      intro i a hi
      cases i with
      | zero =>
        simp only [List.getElem?_cons_zero, Option.some.injEq] at hi
        subst hi
        exact ⟨n, hn, by rw [h1, List.head?_eq_getElem?, List.getElem?_cons_succ]⟩
      | succ i =>
        rw [List.getElem?_cons_succ] at hi
        rw [List.getElem?_cons_succ]
        exact h2 i a hi

theorem backward_chain {α : Type} {st : List (DLLNode α)} :
    ∀ (fuel : Nat) (x : Option Nat) (as : List Nat), backward fuel st x = some as →
      x = as.head? ∧ ∀ i a, as[i]? = some a → ∃ n, st[a]? = some n ∧ n.prev = as[i + 1]? := by
  intro fuel
  induction fuel with
  | zero => intro x as h; simp [backward] at h
  | succ fuel ih =>
    intro x as h
    cases x with
    | none =>
      simp only [backward, Option.some.injEq] at h
      subst h
      simp
    | some a0 =>
      obtain ⟨n, rest, hn, hr, rfl⟩ := backward_cons h
      obtain ⟨h1, h2⟩ := ih _ _ hr
      refine ⟨rfl, ?_⟩
      intro i a hi
      cases i with
      | zero =>
        simp only [List.getElem?_cons_zero, Option.some.injEq] at hi
        subst hi
        exact ⟨n, hn, by rw [h1, List.head?_eq_getElem?, List.getElem?_cons_succ]⟩
      | succ i =>
        rw [List.getElem?_cons_succ] at hi
        rw [List.getElem?_cons_succ]
        exact h2 i a hi

theorem forward_unique {α : Type} {st : List (DLLNode α)} :
    ∀ (f g : Nat) (x : Option Nat) (as bs : List Nat),
      forward f st x = some as → forward g st x = some bs → as = bs := by
  intro f
  induction f with
  | zero => intro g x as bs h; simp [forward] at h
  | succ f ih =>
    intro g x as bs h1 h2
    cases g with
    | zero => simp [forward] at h2
    | succ g =>
      cases x with
      | none =>
        simp only [forward, Option.some.injEq] at h1 h2
        rw [← h1, ← h2]
      | some a =>
        obtain ⟨n, rest, hn, hr, rfl⟩ := forward_cons h1
        obtain ⟨n2, rest2, hn2, hr2, rfl⟩ := forward_cons h2
        rw [hn] at hn2
        cases hn2
        rw [ih g _ _ _ hr hr2]

theorem forward_drop {α : Type} {st : List (DLLNode α)} :
    ∀ (f : Nat) (x : Option Nat) (as : List Nat), forward f st x = some as →
      ∀ j, j < as.length → ∃ g, forward g st as[j]? = some (as.drop j) := by
  intro f
  induction f with
  | zero => intro x as h; simp [forward] at h
  | succ f ih =>
    intro x as h j hj
    cases x with
    | none =>
      simp only [forward, Option.some.injEq] at h
      subst h
      simp at hj
    | some a =>
      obtain ⟨n, rest, hn, hr, rfl⟩ := forward_cons h
      cases j with
      | zero => exact ⟨f + 1, by simpa using h⟩
      | succ j =>
        simp only [List.length_cons, Nat.add_lt_add_iff_right] at hj
        obtain ⟨g, hg⟩ := ih _ _ hr j hj
        exact ⟨g, by simpa using hg⟩

theorem forward_nodup {α : Type} {st : List (DLLNode α)} {f : Nat} {x : Option Nat}
    {as : List Nat} (h : forward f st x = some as) : as.Nodup := by
  rw [List.nodup_iff_getElem?_ne_getElem?]
  intro i j hij hj heq
  obtain ⟨g1, h1⟩ := forward_drop f x as h i (by omega)
  obtain ⟨g2, h2⟩ := forward_drop f x as h j hj
  rw [heq] at h1
  have := forward_unique _ _ _ _ _ h1 h2
  have hl := congrArg List.length this
  simp only [List.length_drop] at hl
  omega

/-- Values stored at a list of references that all point into the store. -/
theorem values_exist {α : Type} (st : List (DLLNode α)) :
    ∀ as : List Nat, (∀ a ∈ as, ∃ n, st[a]? = some n) →
      ∃ L : List α, L.length = as.length ∧
        ∀ (i a : Nat) (v : α), as[i]? = some a → L[i]? = some v →
          ∃ n : DLLNode α, st[a]? = some n ∧ n.data = v := by
  intro as
  induction as with
  | nil => intro _; exact ⟨[], rfl, by simp⟩
  | cons a0 as ih =>
    intro h
    obtain ⟨n0, hn0⟩ := h a0 (List.mem_cons_self _ _)
    obtain ⟨L, hl, hc⟩ := ih (fun a ha => h a (List.mem_cons_of_mem _ ha))
    refine ⟨n0.data :: L, by simp [hl], ?_⟩
    intro i a v hi hv
    cases i with
    | zero =>
      simp only [List.getElem?_cons_zero, Option.some.injEq] at hi hv
      subst hi
      exact ⟨n0, hn0, hv⟩
    | succ i =>
      rw [List.getElem?_cons_succ] at hi hv
      exact hc i a v hi hv

theorem WellFormed.linked {α : Type} {s : DoublyLinkedList α} (h : WellFormed s) :
    ∃ as L, Linked s as L := by
  unfold WellFormed at h
  obtain ⟨h1, h2⟩ := h
  obtain ⟨as, hf⟩ := Option.isSome_iff_exists.1 h1
  rw [hf] at h2
  simp only [Option.map_some'] at h2
  obtain ⟨hh, hn⟩ := forward_chain _ _ _ hf
  obtain ⟨ht, hp⟩ := backward_chain _ _ _ h2
  obtain ⟨L, hl, hc⟩ := values_exist s.store as (by
    intro a ha
    obtain ⟨i, hi, rfl⟩ := List.getElem_of_mem ha
    obtain ⟨n, hn1, _⟩ := hn i _ (List.getElem?_eq_getElem hi)
    exact ⟨n, hn1⟩)
  refine ⟨as, L, forward_nodup hf, hl, hh, ?_, ?_⟩
  · rw [ht, List.head?_reverse]
  · intro i a v hi hv
    obtain ⟨n, hn1, hn2⟩ := hn i a hi
    obtain ⟨n3, hn3, hd⟩ := hc i a v hi hv
    have hlt : i < as.length := (List.getElem?_eq_some_iff.1 hi).1
    have hri : as.reverse[as.length - 1 - i]? = some a := by
      rw [List.getElem?_reverse (by omega)]
      rw [← hi]
      congr 1
      omega
    obtain ⟨n4, hn4, hpv⟩ := hp _ a hri
    rw [hn1] at hn3 hn4
    cases hn3
    cases hn4
    rw [hn1]
    congr 1
    have : n.prev = prevAt as i := by
      rw [hpv]
      cases i with
      | zero =>
        simp only [prevAt]
        apply List.getElem?_eq_none
        simp
        omega
      | succ i =>
        simp only [prevAt]
        rw [List.getElem?_reverse (by omega)]
        congr 1
        omega
    cases n
    simp_all

/-! ## Insertion at the ends -/

theorem prevAt_append_left (as bs : List Nat) {i : Nat} (hi : i ≤ as.length) :
    prevAt (as ++ bs) i = prevAt as i := by
  cases i with
  | zero => rfl
  | succ i => simp only [prevAt]; rw [List.getElem?_append_left (by omega)]

theorem insertAtBack_linked {α : Type} {s : DoublyLinkedList α} {as : List Nat} {L : List α}
    (h : Linked s as L) (data : α) :
    ∃ s1, DoublyLinkedList.insertAtBack data s = (Result.ok Ret.this, s1) ∧
      Linked s1 (as ++ [s.store.length]) (L ++ [data]) := by
  rcases Nat.eq_zero_or_pos as.length with h0 | hpos
  · have has : as = [] := List.length_eq_zero.1 h0
    have hL : L = [] := List.length_eq_zero.1 (by rw [h.len, h0])
    have hh : s.head = none := by rw [h.head, has]; rfl
    subst has hL
    refine ⟨_, by
      simp [DoublyLinkedList.insertAtBack, DoublyLinkedList.isEmpty, Exec.bind_run, Exec.andThen,
        Exec.newNode, Exec.getHead, Exec.pure_run, Exec.setHead, Exec.setTail, hh]
      rfl, ?_⟩
    refine ⟨by simp, by simp, by simp, by simp, ?_⟩
    intro i a v hi hv
    cases i with
    | zero =>
      simp at hi hv
      subst hi hv
      simp [prevAt]
    | succ i => simp at hi
  · obtain ⟨k, hk⟩ : ∃ k, as.length = k + 1 := ⟨as.length - 1, by omega⟩
    obtain ⟨t, hat⟩ : ∃ t, as[k]? = some t := ⟨_, List.getElem?_eq_getElem (by omega)⟩
    obtain ⟨hd, hhd0⟩ : ∃ t, as[0]? = some t := ⟨_, List.getElem?_eq_getElem (by omega)⟩
    obtain ⟨vt, hvt⟩ := h.value_at hat
    have hct := h.cell k _ vt hat hvt
    have hnone : as[k + 1]? = none := List.getElem?_eq_none (by omega)
    rw [hnone] at hct
    have htl : s.tail = some t := by
      rw [h.tail, List.getLast?_eq_getElem?, hk]; simpa using hat
    have hhd : s.head = some hd := by
      rw [h.head, List.head?_eq_getElem?]; exact hhd0
    have hb : t < s.store.length := h.bound hat
    have hne : t ≠ s.store.length := by omega
    have hs1 : s.store[s.store.length]? = none := List.getElem?_eq_none (Nat.le_refl _)
    refine ⟨{ store := ((s.store ++ [DLLNode.mk data none none]).set t
                (DLLNode.mk vt (some s.store.length) (prevAt as k))).set s.store.length
                (DLLNode.mk data none (some t)),
              head := s.head, tail := some s.store.length }, ?_, ?_⟩
    · simp only [DoublyLinkedList.insertAtBack, DoublyLinkedList.isEmpty, Exec.bind_run,
        Exec.andThen, Exec.newNode, Exec.getHead, Exec.getTail, Exec.pure_run, Exec.setNext,
        Exec.setPrev, Exec.setTail, hhd, htl, List.getElem?_append_left hb, hct,
        List.getElem?_set, List.length_append, List.length_set, List.length_singleton,
        List.getElem?_append, hs1, reduceCtorEq, decide_False, decide_True, Bool.false_eq_true,
        if_false, if_true, Nat.lt_irrefl, Nat.sub_self, List.getElem?_cons_zero, hb, hne]
    · have hlook : ∀ a, a < s.store.length →
          (((s.store ++ [DLLNode.mk data none none]).set t
            (DLLNode.mk vt (some s.store.length) (prevAt as k))).set s.store.length
            (DLLNode.mk data none (some t)))[a]?
          = if a = t then some (DLLNode.mk vt (some s.store.length) (prevAt as k))
            else s.store[a]? := by
        intro a ha
        have h1 : s.store.length ≠ a := by omega
        simp only [List.getElem?_set, List.length_append, List.length_set,
          List.length_singleton, List.getElem?_append, h1, if_false, ha, if_true]
        by_cases hta : t = a
        · subst hta; simp [hb]; omega
        · have : a ≠ t := fun e => hta e.symm
          simp [hta, this]
      refine ⟨?_, ?_, ?_, ?_, ?_⟩
      · rw [List.nodup_append]
        refine ⟨h.nodup, by simp, ?_⟩
        intro a ha
        obtain ⟨i, hi, rfl⟩ := List.getElem_of_mem ha
        have := h.bound (List.getElem?_eq_getElem hi)
        simp; omega
      · simp [h.len]
      · show s.head = (as ++ [s.store.length]).head?
        rw [hhd, List.head?_eq_getElem?, List.getElem?_append_left hpos, hhd0]
      · simp
      · intro i a v hi hv
        rcases Nat.lt_or_ge i as.length with hlt | hge
        · rw [List.getElem?_append_left hlt] at hi
          rw [List.getElem?_append_left (by rw [h.len]; exact hlt)] at hv
          have hc := h.cell i a v hi hv
          show (_ : List (DLLNode α))[a]? = _
          rw [hlook a (h.bound hi), prevAt_append_left _ _ (Nat.le_of_lt hlt)]
          by_cases hat2 : a = t
          · subst hat2
            have hik : i = k := h.inj hi hat
            subst hik
            rw [hvt] at hv
            cases hv
            simp [List.getElem?_append, hk]
          · simp only [hat2, if_false, hc]
            have : i + 1 < as.length := by
              rcases Nat.lt_or_ge (i + 1) as.length with h1 | h1
              · exact h1
              · exfalso
                have hik : i = k := by omega
                subst hik
                rw [hat] at hi
                exact hat2 (Option.some.inj hi).symm
            rw [List.getElem?_append_left this]
        · have hie : i = as.length := by
            rcases Nat.lt_or_ge as.length i with h1 | h1
            · rw [List.getElem?_eq_none (by simp; omega)] at hi
              cases hi
            · omega
          subst hie
          simp at hi
          have hv2 : v = data := by
            rw [← h.len] at hv
            simpa using hv.symm
          subst hi hv2
          show (_ : List (DLLNode α))[s.store.length]? = _
          simp [List.getElem?_set, prevAt, hk, List.getElem?_append, hat]


theorem insertAtFront_linked {α : Type} {s : DoublyLinkedList α} {as : List Nat} {L : List α}
    (h : Linked s as L) (data : α) :
    ∃ s1, DoublyLinkedList.insertAtFront data s = (Result.ok Ret.this, s1) ∧
      Linked s1 (s.store.length :: as) (data :: L) := by
  rcases Nat.eq_zero_or_pos as.length with h0 | hpos
  · have has : as = [] := List.length_eq_zero.1 h0
    have hL : L = [] := List.length_eq_zero.1 (by rw [h.len, h0])
    have hh : s.head = none := by rw [h.head, has]; rfl
    subst has hL
    refine ⟨_, by
      simp [DoublyLinkedList.insertAtFront, DoublyLinkedList.isEmpty, Exec.bind_run, Exec.andThen,
        Exec.newNode, Exec.getHead, Exec.pure_run, Exec.setHead, Exec.setTail, hh]
      rfl, ?_⟩
    refine ⟨by simp, by simp, by simp, by simp, ?_⟩
    intro i a v hi hv
    cases i with
    | zero =>
      simp at hi hv
      subst hi hv
      simp [prevAt]
    | succ i => simp at hi
  · obtain ⟨hd, hhd0⟩ : ∃ t, as[0]? = some t := ⟨_, List.getElem?_eq_getElem (by omega)⟩
    obtain ⟨vh, hvh⟩ := h.value_at hhd0
    have hch := h.cell 0 _ vh hhd0 hvh
    have hhd : s.head = some hd := by
      rw [h.head, List.head?_eq_getElem?]; exact hhd0
    have hb : hd < s.store.length := h.bound hhd0
    have hne : hd ≠ s.store.length := by omega
    have hs1 : s.store[s.store.length]? = none := List.getElem?_eq_none (Nat.le_refl _)
    refine ⟨{ store := ((s.store ++ [DLLNode.mk data none none]).set hd
                (DLLNode.mk vh as[0 + 1]? (some s.store.length))).set s.store.length
                (DLLNode.mk data (some hd) none),
              head := some s.store.length, tail := s.tail }, ?_, ?_⟩
    · simp only [DoublyLinkedList.insertAtFront, DoublyLinkedList.isEmpty, Exec.bind_run,
        Exec.andThen, Exec.newNode, Exec.getHead, Exec.getTail, Exec.pure_run, Exec.setNext,
        Exec.setPrev, Exec.setHead, hhd, List.getElem?_append_left hb, hch,
        List.getElem?_set, List.length_append, List.length_set, List.length_singleton,
        List.getElem?_append, hs1, reduceCtorEq, decide_False, decide_True, Bool.false_eq_true,
        if_false, if_true, Nat.lt_irrefl, Nat.sub_self, List.getElem?_cons_zero, hb, hne, prevAt]
    · have hlook : ∀ a, a < s.store.length →
          (((s.store ++ [DLLNode.mk data none none]).set hd
            (DLLNode.mk vh as[0 + 1]? (some s.store.length))).set s.store.length
            (DLLNode.mk data (some hd) none))[a]?
          = if a = hd then some (DLLNode.mk vh as[0 + 1]? (some s.store.length))
            else s.store[a]? := by
        intro a ha
        have h1 : s.store.length ≠ a := by omega
        simp only [List.getElem?_set, List.length_append, List.length_set,
          List.length_singleton, List.getElem?_append, h1, if_false, ha, if_true]
        by_cases hta : hd = a
        · subst hta; simp [hb]; omega
        · have : a ≠ hd := fun e => hta e.symm
          simp [hta, this]
      refine ⟨?_, ?_, ?_, ?_, ?_⟩
      · rw [List.nodup_cons]
        refine ⟨?_, h.nodup⟩
        intro ha
        obtain ⟨i, hi, heq⟩ := List.getElem_of_mem ha
        have := h.bound (List.getElem?_eq_getElem hi)
        omega
      · simp [h.len]
      · simp
      · show s.tail = (s.store.length :: as).getLast?
        rw [h.tail, List.getLast?_eq_getElem?, List.getLast?_eq_getElem?]
        obtain ⟨k, hk⟩ : ∃ k, as.length = k + 1 := ⟨as.length - 1, by omega⟩
        simp [hk]
      · intro i a v hi hv
        cases i with
        | zero =>
          simp at hi hv
          subst hi hv
          show (_ : List (DLLNode α))[s.store.length]? = _
          simp [List.getElem?_set, prevAt, hhd0]
        | succ i =>
          rw [List.getElem?_cons_succ] at hi hv
          rw [List.getElem?_cons_succ]
          have hc := h.cell i a v hi hv
          show (_ : List (DLLNode α))[a]? = _
          rw [hlook a (h.bound hi)]
          by_cases hat2 : a = hd
          · subst hat2
            have hik : i = 0 := h.inj hi hhd0
            subst hik
            rw [hvh] at hv
            cases hv
            simp [prevAt]
          · simp only [hat2, if_false, hc]
            cases i with
            | zero =>
              rw [hhd0] at hi
              exact absurd (Option.some.inj hi).symm hat2
            | succ i => simp [prevAt]

theorem insertAtBackMany_linked {α : Type} (items : List α) :
    ∀ (s : DoublyLinkedList α) (as : List Nat) (L : List α), Linked s as L →
      ∃ s1 as1, DoublyLinkedList.insertAtBackMany items s = (Result.ok Ret.this, s1) ∧
        Linked s1 as1 (L ++ items) := by
  induction items with
  | nil =>
    intro s as L h
    exact ⟨s, as, rfl, by simpa using h⟩
  | cons item items ih =>
    intro s as L h
    obtain ⟨s1, h1, hl1⟩ := insertAtBack_linked h item
    obtain ⟨s2, as2, h2, hl2⟩ := ih s1 _ _ hl1
    refine ⟨s2, as2, ?_, by simpa using hl2⟩
    simp only [DoublyLinkedList.insertAtBackMany, Exec.bind_run]
    rw [Exec.andThen_ok h1]
    exact h2

theorem Exec.bind_ok {α β γ : Type} {m : Exec α β} {f : β → Exec α γ}
    {s s1 : DoublyLinkedList α} {v : β} (h : m s = (Result.ok v, s1)) :
    (m >>= f) s = f v s1 :=
  Exec.andThen_ok h

theorem Exec.bind_fault {α β γ : Type} {m : Exec α β} {f : β → Exec α γ}
    {s s1 : DoublyLinkedList α} {e : Fault} (h : m s = (Result.fault e, s1)) :
    (m >>= f) s = (Result.fault e, s1) :=
  Exec.andThen_fault h

theorem empty_linked {α : Type} : Linked (DoublyLinkedList.empty : DoublyLinkedList α) [] [] :=
  ⟨List.nodup_nil, rfl, rfl, rfl, by intro i a v hi; simp at hi⟩

/-! ## Removing the middle node -/

/-- On a represented list the two pointers started at positions `l` and `r`, at least two
apart, stop around position `l + (r - l - 1) / 2 + 1`. -/
theorem removeMiddleLoop_linked {α : Type} {s : DoublyLinkedList α} {as : List Nat}
    {L : List α} (h : Linked s as L) :
    ∀ (fuel l r : Nat), l + 2 ≤ r → r < as.length → r - l ≤ fuel + 1 →
      DoublyLinkedList.removeMiddleLoop fuel as[l]? as[r]? s
        = (Result.ok (as[l + (r - l - 1) / 2]?, as[l + (r - l - 1) / 2 + 2]?), s) := by
  intro fuel
  induction fuel with
  | zero => intro l r h1 h2 h3; omega
  | succ fuel ih =>
    intro l r h1 h2 h3
    obtain ⟨q, rfl⟩ : ∃ q, r = q + 1 := ⟨r - 1, by omega⟩
    obtain ⟨al, hal⟩ : ∃ a, as[l]? = some a := ⟨_, List.getElem?_eq_getElem (by omega)⟩
    obtain ⟨ar, har⟩ : ∃ a, as[q + 1]? = some a := ⟨_, List.getElem?_eq_getElem h2⟩
    obtain ⟨al1, hal1⟩ : ∃ a, as[l + 1]? = some a := ⟨_, List.getElem?_eq_getElem (by omega)⟩
    obtain ⟨aq, haq⟩ : ∃ a, as[q]? = some a := ⟨_, List.getElem?_eq_getElem (by omega)⟩
    obtain ⟨vl, hvl⟩ := h.value_at hal
    obtain ⟨vr, hvr⟩ := h.value_at har
    obtain ⟨vl1, hvl1⟩ := h.value_at hal1
    have hcl := h.cell _ _ _ hal hvl
    have hcr := h.cell _ _ _ har hvr
    have hcl1 := h.cell _ _ _ hal1 hvl1
    simp only [DoublyLinkedList.removeMiddleLoop]
    rw [hal, har, Exec.bind_ok (Exec.node_some hcl), Exec.bind_ok (Exec.node_some hcr)]
    simp only [prevAt]
    by_cases hd2 : l + 1 = q
    · subst hd2
      have : ¬ (as[l + 1]? ≠ as[l + 1]?) := fun hne => hne rfl
      rw [if_neg this, Exec.pure_run, ← hal, ← har]
      have e : l + (l + 1 + 1 - l - 1) / 2 = l := by omega
      rw [e]
    · have hne : as[l + 1]? ≠ as[q]? := by
        rw [hal1, haq]
        intro e
        cases e
        exact hd2 (h.inj hal1 haq)
      rw [if_pos hne, hal1, Exec.bind_ok (Exec.node_some hcl1),
        Exec.bind_ok (Exec.node_some hcr)]
      simp only [prevAt]
      by_cases hd3 : l + 2 = q
      · subst hd3
        have : ¬ (as[l + 1 + 1]? ≠ as[l + 2]?) := fun hne => hne rfl
        rw [if_neg this, ← hal1, ← har, ih (l + 1) (l + 2 + 1) (by omega) h2 (by omega)]
        have e : l + 1 + (l + 2 + 1 - (l + 1) - 1) / 2 = l + (l + 2 + 1 - l - 1) / 2 := by omega
        rw [e]
      · obtain ⟨al2, hal2⟩ : ∃ a, as[l + 1 + 1]? = some a :=
          ⟨_, List.getElem?_eq_getElem (by omega)⟩
        have hne2 : as[l + 1 + 1]? ≠ as[q]? := by
          rw [hal2, haq]
          intro e
          cases e
          exact hd3 (h.inj hal2 haq)
        rw [if_pos hne2, ← hal1, ih (l + 1) q (by omega) (by omega) (by omega)]
        have e : l + 1 + (q - (l + 1) - 1) / 2 = l + (q + 1 - l - 1) / 2 := by omega
        rw [e]

theorem isEmpty_run {α : Type} (s : DoublyLinkedList α) :
    DoublyLinkedList.isEmpty s = (Result.ok (decide (s.head = none)), s) := rfl

theorem prevAt_eraseIdx (as : List Nat) (m i : Nat) :
    prevAt (as.eraseIdx m) i = if i ≤ m then prevAt as i else prevAt as (i + 1) := by
  cases i with
  | zero => simp [prevAt]
  | succ i =>
    simp only [prevAt, List.getElem?_eraseIdx]
    by_cases hlt : i < m
    · have : i + 1 ≤ m := hlt
      simp [hlt, this]
    · have : ¬ (i + 1 ≤ m) := by omega
      simp [hlt, this]

theorem removeMiddleNode_empty {α : Type} {s : DoublyLinkedList α} {L : List α}
    (h : Linked s [] L) (fuel : Nat) :
    DoublyLinkedList.removeMiddleNode fuel s = (Result.ok Ret.null, s) := by
  have hh : s.head = none := h.head
  simp only [DoublyLinkedList.removeMiddleNode]
  rw [Exec.bind_ok (isEmpty_run s), hh]
  rfl

theorem removeMiddleNode_one {α : Type} {s : DoublyLinkedList α} {a0 : Nat} {v0 : α}
    (h : Linked s [a0] [v0]) (fuel : Nat) :
    DoublyLinkedList.removeMiddleNode fuel s
      = (Result.ok (Ret.data v0), { s with head := none, tail := none }) := by
  have hh : s.head = some a0 := h.head
  have ht : s.tail = some a0 := h.tail
  have hc := h.cell 0 a0 v0 rfl rfl
  simp only [DoublyLinkedList.removeMiddleNode]
  rw [Exec.bind_ok (isEmpty_run s), hh]
  simp only [reduceCtorEq, decide_False, Bool.false_eq_true, if_false]
  rw [Exec.bind_ok (rfl : Exec.getHead s = (Result.ok s.head, s)),
    Exec.bind_ok (rfl : Exec.getTail s = (Result.ok s.tail, s)), hh, ht, if_pos rfl,
    Exec.bind_ok (Exec.node_some hc)]
  rfl

theorem removeMiddleNode_two {α : Type} {s : DoublyLinkedList α} {a0 a1 : Nat} {v0 v1 : α}
    (h : Linked s [a0, a1] [v0, v1]) (fuel : Nat) :
    DoublyLinkedList.removeMiddleNode fuel s
      = (Result.ok (Ret.data v1),
          { store := s.store.set a0 (DLLNode.mk v0 none none), head := some a0,
            tail := some a0 }) := by
  have hh : s.head = some a0 := h.head
  have ht : s.tail = some a1 := h.tail
  have hc0 : s.store[a0]? = some (DLLNode.mk v0 (some a1) none) := h.cell 0 a0 v0 rfl rfl
  have hc1 := h.cell 1 a1 v1 rfl rfl
  have hne : a0 ≠ a1 := by
    intro e
    have := h.nodup
    simp [e] at this
  have hne2 : (some a0 : Option Nat) ≠ some a1 := fun e => hne (Option.some.inj e)
  simp only [DoublyLinkedList.removeMiddleNode]
  rw [Exec.bind_ok (isEmpty_run s), hh]
  simp only [reduceCtorEq, decide_False, Bool.false_eq_true, if_false]
  rw [Exec.bind_ok (rfl : Exec.getHead s = (Result.ok s.head, s)),
    Exec.bind_ok (rfl : Exec.getTail s = (Result.ok s.tail, s)), hh, ht, if_neg hne2,
    Exec.bind_ok (Exec.node_some hc0)]
  dsimp only
  rw [if_pos rfl, Exec.bind_ok (Exec.node_some hc1), Exec.bind_ok (Exec.setNext_some none hc0)]
  simp [Exec.bind_run, Exec.andThen, Exec.setTail, Exec.pure_run, hh]

theorem removeMiddleNode_two_linked {α : Type} {s : DoublyLinkedList α} {a0 a1 : Nat}
    {v0 v1 : α} (h : Linked s [a0, a1] [v0, v1]) :
    Linked { store := s.store.set a0 (DLLNode.mk v0 none none), head := some a0,
             tail := some a0 } [a0] [v0] := by
  refine ⟨by simp, rfl, rfl, rfl, ?_⟩
  intro i a v hi hv
  cases i with
  | zero =>
    simp at hi hv
    subst hi hv
    have : a0 < s.store.length := h.bound (i := 0) rfl
    simp [List.getElem?_set, prevAt, this]
  | succ i => simp at hi

theorem removeMiddleNode_many {α : Type} {s : DoublyLinkedList α} {as : List Nat} {L : List α}
    (h : Linked s as L) (fuel : Nat) (hn : 3 ≤ as.length) (hf : as.length ≤ fuel) :
    ∃ v s1, L[as.length / 2]? = some v ∧
      DoublyLinkedList.removeMiddleNode fuel s = (Result.ok (Ret.data v), s1) ∧
      Linked s1 (as.eraseIdx (as.length / 2)) (L.eraseIdx (as.length / 2)) := by
  obtain ⟨p, hp⟩ : ∃ p, as.length / 2 = p + 1 := ⟨as.length / 2 - 1, by omega⟩
  obtain ⟨q, hq⟩ : ∃ q, as.length = q + 1 := ⟨as.length - 1, by omega⟩
  have hpq : p + 2 ≤ q := by omega
  obtain ⟨hd, hhd0⟩ : ∃ a, as[0]? = some a := ⟨_, List.getElem?_eq_getElem (by omega)⟩
  obtain ⟨a1, ha1⟩ : ∃ a, as[1]? = some a := ⟨_, List.getElem?_eq_getElem (by omega)⟩
  obtain ⟨tl, htl0⟩ : ∃ a, as[q]? = some a := ⟨_, List.getElem?_eq_getElem (by omega)⟩
  obtain ⟨ap, hap⟩ : ∃ a, as[p]? = some a := ⟨_, List.getElem?_eq_getElem (by omega)⟩
  obtain ⟨am, ham⟩ : ∃ a, as[p + 1]? = some a := ⟨_, List.getElem?_eq_getElem (by omega)⟩
  obtain ⟨ar, har⟩ : ∃ a, as[p + 2]? = some a := ⟨_, List.getElem?_eq_getElem (by omega)⟩
  obtain ⟨vh, hvh⟩ := h.value_at hhd0
  obtain ⟨vp, hvp⟩ := h.value_at hap
  obtain ⟨vm, hvm⟩ := h.value_at ham
  obtain ⟨vr, hvr⟩ := h.value_at har
  have hch := h.cell _ _ _ hhd0 hvh
  have hcp := h.cell _ _ _ hap hvp
  have hcm := h.cell _ _ _ ham hvm
  have hcr := h.cell _ _ _ har hvr
  have hh : s.head = some hd := by rw [h.head, List.head?_eq_getElem?]; exact hhd0
  have ht : s.tail = some tl := by
    rw [h.tail, List.getLast?_eq_getElem?, hq]; simpa using htl0
  have hne1 : (some hd : Option Nat) ≠ some tl := by
    intro e
    have := h.inj hhd0 (by rw [htl0, ← e])
    omega
  have hne2 : as[0 + 1]? ≠ some tl := by
    rw [← htl0, ha1]
    intro e
    have := h.inj ha1 e.symm
    omega
  have hrp : ar ≠ ap := by
    intro e
    have := h.inj har (by rw [hap, e])
    omega
  have hcr1 : (s.store.set ap (DLLNode.mk vp (some ar) (prevAt as p)))[ar]?
      = some (DLLNode.mk vr as[p + 2 + 1]? (prevAt as (p + 2))) := by
    rw [List.getElem?_set, if_neg (fun e => hrp e.symm)]
    exact hcr
  have hloop := removeMiddleLoop_linked h fuel 0 q (by omega) (by omega) (by omega)
  have e1 : 0 + (q - 0 - 1) / 2 = p := by omega
  rw [e1, hhd0, htl0, hap, har] at hloop
  refine ⟨vm, { store := (s.store.set ap (DLLNode.mk vp (some ar) (prevAt as p))).set ar
                  (DLLNode.mk vr as[p + 2 + 1]? (some ap)),
                head := s.head, tail := s.tail }, by rw [hp]; exact hvm, ?_, ?_⟩
  · simp only [DoublyLinkedList.removeMiddleNode]
    rw [Exec.bind_ok (isEmpty_run s), hh]
    simp only [reduceCtorEq, decide_False, Bool.false_eq_true, if_false]
    rw [Exec.bind_ok (rfl : Exec.getHead s = (Result.ok s.head, s)),
      Exec.bind_ok (rfl : Exec.getTail s = (Result.ok s.tail, s)), hh, ht, if_neg hne1,
      Exec.bind_ok (Exec.node_some hch)]
    dsimp only
    rw [if_neg hne2, Exec.bind_ok hloop]
    dsimp only
    rw [Exec.bind_ok (Exec.node_some hcp)]
    dsimp only
    rw [ham, Exec.bind_ok (Exec.node_some hcm), Exec.bind_ok (Exec.setNext_some (some ar) hcp)]
    rw [Exec.bind_ok (Exec.setPrev_some (some ap) hcr1)]
    simp [Exec.pure_run, hh, ht]
  · have hbp : ap < s.store.length := h.bound hap
    have hbr : ar < s.store.length := h.bound har
    have hlook : ∀ a, ((s.store.set ap (DLLNode.mk vp (some ar) (prevAt as p))).set ar
          (DLLNode.mk vr as[p + 2 + 1]? (some ap)))[a]?
        = if a = ar then some (DLLNode.mk vr as[p + 2 + 1]? (some ap))
          else if a = ap then some (DLLNode.mk vp (some ar) (prevAt as p))
          else s.store[a]? := by
      intro a
      simp only [List.getElem?_set, List.length_set, hbp, hbr, if_true]
      by_cases h1 : ar = a
      · simp [h1]
      · have h1b : ¬ a = ar := fun e => h1 e.symm
        by_cases h2 : ap = a
        · simp [h1, h1b, h2]
        · have h2b : ¬ a = ap := fun e => h2 e.symm
          simp [h1, h1b, h2, h2b]
    rw [hp]
    refine ⟨h.nodup.sublist (List.eraseIdx_sublist _ _), ?_, ?_, ?_, ?_⟩
    · rw [List.length_eraseIdx, List.length_eraseIdx, h.len]
    · show s.head = _
      rw [hh, List.head?_eq_getElem?, List.getElem?_eraseIdx, if_pos (by omega), hhd0]
    · show s.tail = _
      rw [ht, List.getLast?_eq_getElem?, List.getElem?_eraseIdx, List.length_eraseIdx,
        if_pos (show p + 1 < as.length by omega),
        if_neg (show ¬ (as.length - 1 - 1 < p + 1) by omega), ← htl0]
      have e : as.length - 1 - 1 + 1 = q := by omega
      rw [e]
    · intro i a v hi hv
      show (_ : List (DLLNode α))[a]? = _
      rw [hlook a, prevAt_eraseIdx]
      rw [List.getElem?_eraseIdx] at hi hv
      rw [List.getElem?_eraseIdx]
      by_cases hlt : i < p + 1
      · rw [if_pos hlt] at hi hv
        have hc := h.cell i a v hi hv
        have har2 : ¬ a = ar := by
          intro e
          have := h.inj hi (by rw [har, e])
          omega
        have hle : i ≤ p + 1 := by omega
        by_cases hip : i = p
        · subst hip
          rw [hap] at hi
          cases hi
          rw [hvp] at hv
          cases hv
          have c1 : ¬ (i + 1 < i + 1) := by omega
          simp only [har2, if_false, if_true, hle, c1, har]
        · have hap2 : ¬ a = ap := by
            intro e
            exact hip (h.inj hi (by rw [hap, e]))
          have c1 : i + 1 < p + 1 := by omega
          simp only [har2, hap2, if_false, hle, if_true, c1, hc]
      · rw [if_neg hlt] at hi hv
        have hc := h.cell (i + 1) a v hi hv
        have c1 : ¬ (i + 1 < p + 1) := by omega
        by_cases hip : i = p + 1
        · subst hip
          rw [har] at hi
          cases hi
          rw [hvr] at hv
          cases hv
          have c2 : p + 1 ≤ p + 1 := Nat.le_refl _
          simp only [if_true, c1, if_false, c2, prevAt, hap]
        · have har2 : ¬ a = ar := by
            intro e
            have := h.inj hi (by rw [har, e])
            omega
          have hap2 : ¬ a = ap := by
            intro e
            have := h.inj hi (by rw [hap, e])
            omega
          have c2 : ¬ (i ≤ p + 1) := by omega
          simp only [har2, hap2, c1, c2, if_false, hc]

theorem removeMiddleNode_linked {α : Type} {s : DoublyLinkedList α} {as : List Nat}
    {L : List α} (h : Linked s as L) (fuel : Nat) (hpos : 0 < as.length)
    (hf : as.length ≤ fuel) :
    ∃ v s1, L[as.length / 2]? = some v ∧
      DoublyLinkedList.removeMiddleNode fuel s = (Result.ok (Ret.data v), s1) ∧
      Linked s1 (as.eraseIdx (as.length / 2)) (L.eraseIdx (as.length / 2)) := by
  rcases Nat.lt_or_ge as.length 3 with hlt | hge
  · rcases Nat.lt_or_ge as.length 2 with h1 | h2
    · have hl1 : as.length = 1 := by omega
      obtain ⟨a0, rfl⟩ := List.length_eq_one.1 hl1
      obtain ⟨v0, rfl⟩ := List.length_eq_one.1 (h.len.trans hl1)
      have e : ([a0] : List Nat).length / 2 = 0 := by simp
      rw [e]
      refine ⟨v0, _, rfl, removeMiddleNode_one h fuel, ?_⟩
      exact ⟨List.nodup_nil, rfl, rfl, rfl, by intro i a v hi; simp at hi⟩
    · have hl2 : as.length = 2 := by omega
      obtain ⟨a0, a1, rfl⟩ := List.length_eq_two.1 hl2
      obtain ⟨v0, v1, rfl⟩ := List.length_eq_two.1 (h.len.trans hl2)
      have e : ([a0, a1] : List Nat).length / 2 = 1 := by simp
      rw [e]
      exact ⟨v1, _, rfl, removeMiddleNode_two h fuel, removeMiddleNode_two_linked h⟩
  · exact removeMiddleNode_many h fuel hge hf

/-! ## Insertion after a value -/

theorem Linked.alloc {α : Type} {s : DoublyLinkedList α} {as : List Nat} {L : List α}
    (h : Linked s as L) (x : DLLNode α) :
    Linked { s with store := s.store ++ [x] } as L := by
  refine ⟨h.nodup, h.len, h.head, h.tail, ?_⟩
  intro i a v hi hv
  show (s.store ++ [x])[a]? = _
  rw [List.getElem?_append_left (h.bound hi)]
  exact h.cell i a v hi hv

/-- The scan of `insertAfter` passes over positions that do not hold the target. -/
theorem insertAfterLoop_skip {α : Type} [DecidableEq α] {s : DoublyLinkedList α}
    {as : List Nat} {L : List α} (h : Linked s as L) (targetVal : α) (afterNode : Option Nat)
    (k : Nat) :
    ∀ (d fuel : Nat), k + d ≤ as.length →
      (∀ j : Nat, k ≤ j → j < k + d → L[j]? ≠ some targetVal) →
      DoublyLinkedList.insertAfterLoop targetVal afterNode (fuel + d) (prevAt as (k + d)) s
        = DoublyLinkedList.insertAfterLoop targetVal afterNode fuel (prevAt as k) s := by
  intro d
  induction d with
  | zero => intro fuel _ _; rfl
  | succ d ih =>
    intro fuel hle hno
    obtain ⟨a, ha⟩ : ∃ a, as[k + d]? = some a := ⟨_, List.getElem?_eq_getElem (by omega)⟩
    obtain ⟨v, hv⟩ := h.value_at ha
    have hc := h.cell _ _ _ ha hv
    have hvt : ¬ v = targetVal := by
      intro e
      exact hno (k + d) (by omega) (by omega) (by rw [hv, e])
    show DoublyLinkedList.insertAfterLoop targetVal afterNode (fuel + d + 1) as[k + d]? s = _
    rw [ha]
    simp only [DoublyLinkedList.insertAfterLoop]
    rw [Exec.bind_ok (Exec.node_some hc)]
    dsimp only
    rw [if_neg hvt]
    exact ih fuel (by omega) (fun j h1 h2 => hno j h1 (by omega))

/-- Without a match the scan of `insertAfter` falls out of the loop: the call yields
`undefined` and writes nothing. -/
theorem insertAfterLoop_absent {α : Type} [DecidableEq α] {s : DoublyLinkedList α}
    {as : List Nat} {L : List α} (h : Linked s as L) (targetVal : α) (afterNode : Option Nat)
    (fuel : Nat) (hf : as.length < fuel) (hno : ∀ j : Nat, L[j]? ≠ some targetVal) :
    DoublyLinkedList.insertAfterLoop targetVal afterNode fuel s.tail s
      = (Result.ok Ret.undefined, s) := by
  obtain ⟨f, rfl⟩ : ∃ f, fuel = f + 1 + as.length := ⟨fuel - 1 - as.length, by omega⟩
  rw [h.tail_eq]
  have := insertAfterLoop_skip h targetVal afterNode 0 as.length (f + 1) (by omega)
    (fun j _ _ => hno j)
  rw [Nat.zero_add] at this
  rw [this]
  rfl

theorem getElem?_splice {β : Type} (l : List β) (m : Nat) (x : β) (hm : m ≤ l.length)
    (j : Nat) :
    (l.take m ++ x :: l.drop m)[j]?
      = if j < m then l[j]? else if j = m then some x else l[j - 1]? := by
  have hlen : (l.take m).length = m := by rw [List.length_take]; omega
  rw [List.getElem?_append, hlen]
  by_cases h1 : j < m
  · rw [if_pos h1, if_pos h1, List.getElem?_take_of_lt h1]
  · rw [if_neg h1, if_neg h1]
    by_cases h2 : j = m
    · subst h2
      simp
    · rw [if_neg h2]
      obtain ⟨d, hd⟩ : ∃ d, j - m = d + 1 := ⟨j - m - 1, by omega⟩
      rw [hd, List.getElem?_cons_succ, List.getElem?_drop]
      congr 1
      omega

theorem prevAt_splice (as : List Nat) (m n : Nat) (hm : m ≤ as.length) (j : Nat) :
    prevAt (as.take m ++ n :: as.drop m) j
      = if j ≤ m then prevAt as j else if j = m + 1 then some n else prevAt as (j - 1) := by
  cases j with
  | zero => simp [prevAt]
  | succ i =>
    simp only [prevAt]
    rw [getElem?_splice as m n hm i]
    by_cases h1 : i < m
    · have : i + 1 ≤ m := h1
      simp [h1, this]
    · have h1b : ¬ (i + 1 ≤ m) := by omega
      by_cases h2 : i = m
      · simp [h2]
      · have h3 : ¬ (i + 1 = m + 1) := by omega
        obtain ⟨d, rfl⟩ : ∃ d, i = d + 1 := ⟨i - 1, by omega⟩
        simp [h1, h1b, h2, prevAt]

/-- The splice of `insertAfter` at a matching node that is not the tail. -/
theorem insertAfterLoop_hit {α : Type} [DecidableEq α] {s : DoublyLinkedList α}
    {as : List Nat} {L : List α} (h : Linked s as L) (targetVal newVal : α) (n k fuel : Nat)
    (hn : s.store[n]? = some (DLLNode.mk newVal none none))
    (hfresh : ∀ i : Nat, as[i]? ≠ some n)
    (hk : k + 1 < as.length) (hv : L[k]? = some targetVal) :
    ∃ s1, DoublyLinkedList.insertAfterLoop targetVal (some n) (fuel + 1) as[k]? s
        = (Result.ok (Ret.bool true), s1) ∧
      s1.head = s.head ∧ s1.tail = s.tail ∧
      Linked s1 (as.take (k + 1) ++ n :: as.drop (k + 1))
        (L.take (k + 1) ++ newVal :: L.drop (k + 1)) := by
  obtain ⟨ak, hak⟩ : ∃ a, as[k]? = some a := ⟨_, List.getElem?_eq_getElem (by omega)⟩
  obtain ⟨ak1, hak1⟩ : ∃ a, as[k + 1]? = some a := ⟨_, List.getElem?_eq_getElem (by omega)⟩
  obtain ⟨q, hq⟩ : ∃ q, as.length = q + 1 := ⟨as.length - 1, by omega⟩
  obtain ⟨v1, hv1⟩ := h.value_at hak1
  have hck := h.cell _ _ _ hak hv
  have hck1 := h.cell _ _ _ hak1 hv1
  rw [hak1] at hck
  have hkn : ak ≠ n := fun e => hfresh k (by rw [hak, e])
  have hk1n : ak1 ≠ n := fun e => hfresh (k + 1) (by rw [hak1, e])
  have hkk1 : ak ≠ ak1 := by
    intro e
    have := h.inj hak (by rw [hak1, e])
    omega
  have hbn : n < s.store.length := (List.getElem?_eq_some_iff.1 hn).1
  have hbk : ak < s.store.length := h.bound hak
  have hbk1 : ak1 < s.store.length := h.bound hak1
  have htl : ¬ (some ak = s.tail) := by
    rw [h.tail, List.getLast?_eq_getElem?, hq]
    intro e
    have := h.inj hak e.symm
    omega
  have e3 : (s.store.set n (DLLNode.mk newVal none (some ak)))[ak]?
      = some (DLLNode.mk targetVal (some ak1) (prevAt as k)) := by
    rw [List.getElem?_set, if_neg (fun e => hkn e.symm)]; exact hck
  have e4 : (s.store.set n (DLLNode.mk newVal none (some ak)))[n]?
      = some (DLLNode.mk newVal none (some ak)) := by
    rw [List.getElem?_set, if_pos rfl, if_pos hbn]
  have e5 : ((s.store.set n (DLLNode.mk newVal none (some ak))).set n
        (DLLNode.mk newVal (some ak1) (some ak)))[ak]?
      = some (DLLNode.mk targetVal (some ak1) (prevAt as k)) := by
    rw [List.getElem?_set, if_neg (fun e => hkn e.symm)]; exact e3
  have e6 : ((s.store.set n (DLLNode.mk newVal none (some ak))).set n
        (DLLNode.mk newVal (some ak1) (some ak)))[ak1]?
      = some (DLLNode.mk v1 as[k + 1 + 1]? (prevAt as (k + 1))) := by
    rw [List.getElem?_set, if_neg (fun e => hk1n e.symm), List.getElem?_set,
      if_neg (fun e => hk1n e.symm)]
    exact hck1
  have e7 : (((s.store.set n (DLLNode.mk newVal none (some ak))).set n
        (DLLNode.mk newVal (some ak1) (some ak))).set ak1
        (DLLNode.mk v1 as[k + 1 + 1]? (some n)))[ak]?
      = some (DLLNode.mk targetVal (some ak1) (prevAt as k)) := by
    rw [List.getElem?_set, if_neg (fun e => hkk1 e.symm)]; exact e5
  refine ⟨{ store := ((((s.store.set n (DLLNode.mk newVal none (some ak))).set n
        (DLLNode.mk newVal (some ak1) (some ak))).set ak1
        (DLLNode.mk v1 as[k + 1 + 1]? (some n))).set ak
        (DLLNode.mk targetVal (some n) (prevAt as k))),
            head := s.head, tail := s.tail }, ?_, rfl, rfl, ?_⟩
  · rw [hak]
    simp only [DoublyLinkedList.insertAfterLoop]
    rw [Exec.bind_ok (Exec.node_some (h.cell _ _ _ hak hv))]
    dsimp only
    rw [if_pos rfl, Exec.bind_ok (rfl : Exec.getTail s = (Result.ok s.tail, s)), if_neg htl,
      Exec.bind_ok (Exec.pure_run () s), Exec.bind_ok (Exec.setPrev_some (some ak) hn),
      Exec.bind_ok (Exec.node_some e3)]
    dsimp only
    rw [Exec.bind_ok (Exec.setNext_some (some ak1) e4), Exec.bind_ok (Exec.node_some e5)]
    dsimp only
    rw [Exec.bind_ok (Exec.setPrev_some (some n) e6),
      Exec.bind_ok (Exec.setNext_some (some n) e7)]
    rfl
  · have hlook : ∀ a, (((((s.store.set n (DLLNode.mk newVal none (some ak))).set n
          (DLLNode.mk newVal (some ak1) (some ak))).set ak1
          (DLLNode.mk v1 as[k + 1 + 1]? (some n))).set ak
          (DLLNode.mk targetVal (some n) (prevAt as k))))[a]?
        = if a = ak then some (DLLNode.mk targetVal (some n) (prevAt as k))
          else if a = ak1 then some (DLLNode.mk v1 as[k + 1 + 1]? (some n))
          else if a = n then some (DLLNode.mk newVal (some ak1) (some ak))
          else s.store[a]? := by
      intro a
      simp only [List.getElem?_set, List.length_set, hbk, hbk1, hbn, if_true]
      by_cases h1 : ak = a
      · simp [h1]
      · have h1b : ¬ a = ak := fun e => h1 e.symm
        by_cases h2 : ak1 = a
        · simp [h1, h1b, h2]
        · have h2b : ¬ a = ak1 := fun e => h2 e.symm
          by_cases h3 : n = a
          · simp [h1, h1b, h2, h2b, h3]
          · have h3b : ¬ a = n := fun e => h3 e.symm
            simp [h1, h1b, h2, h2b, h3, h3b]
    have hkl : k + 1 ≤ as.length := by omega
    have hkL : k + 1 ≤ L.length := by rw [h.len]; omega
    refine ⟨?_, ?_, ?_, ?_, ?_⟩
    · have hp : (as.take (k + 1) ++ n :: as.drop (k + 1)).Perm (n :: as) := by
        have := @List.perm_middle _ n (as.take (k + 1)) (as.drop (k + 1))
        rwa [List.take_append_drop] at this
      rw [hp.nodup_iff, List.nodup_cons]
      refine ⟨?_, h.nodup⟩
      intro hmem
      obtain ⟨i, hi, heq⟩ := List.getElem_of_mem hmem
      exact hfresh i (by rw [List.getElem?_eq_getElem hi, heq])
    · simp only [List.length_append, List.length_take, List.length_cons, List.length_drop, h.len]
    · show s.head = _
      rw [h.head, List.head?_eq_getElem?, List.head?_eq_getElem?, getElem?_splice _ _ _ hkl,
        if_pos (Nat.succ_pos k)]
    · show s.tail = _
      rw [h.tail, List.getLast?_eq_getElem?, List.getLast?_eq_getElem?,
        getElem?_splice _ _ _ hkl]
      have e1 : (as.take (k + 1) ++ n :: as.drop (k + 1)).length - 1 = as.length := by
        simp only [List.length_append, List.length_take, List.length_cons, List.length_drop]
        omega
      rw [e1, if_neg (show ¬ (as.length < k + 1) by omega),
        if_neg (show ¬ (as.length = k + 1) by omega)]
    · intro j a v hj hvj
      show (_ : List (DLLNode α))[a]? = _
      rw [hlook a, prevAt_splice _ _ _ hkl, getElem?_splice _ _ _ hkl]
      rw [getElem?_splice _ _ _ hkl] at hj
      rw [getElem?_splice _ _ _ hkL] at hvj
      by_cases c1 : j < k + 1
      · rw [if_pos c1] at hj hvj
        have hc := h.cell j a v hj hvj
        have hjle : j ≤ k + 1 := by omega
        have n1 : ¬ a = ak1 := by
          intro e
          have := h.inj hj (by rw [hak1, e])
          omega
        have n2 : ¬ a = n := fun e => hfresh j (by rw [hj, e])
        by_cases c2 : j = k
        · subst c2
          rw [hak] at hj
          cases hj
          rw [hv] at hvj
          cases hvj
          have c3 : ¬ (j + 1 < j + 1) := by omega
          simp only [if_true, hjle, c3, if_false]
        · have n0 : ¬ a = ak := by
            intro e
            exact c2 (h.inj hj (by rw [hak, e]))
          have c3 : j + 1 < k + 1 := by omega
          simp only [n0, n1, n2, if_false, hjle, if_true, c3, hc]
      · rw [if_neg c1] at hj hvj
        have c1b : ¬ (j + 1 < k + 1) := by omega
        have c1c : ¬ (j + 1 = k + 1) := by omega
        by_cases c2 : j = k + 1
        · subst c2
          rw [if_pos rfl] at hj hvj
          cases hj
          cases hvj
          have c4 : k + 1 ≤ k + 1 := Nat.le_refl _
          simp only [hkn.symm, hk1n.symm, if_false, if_true, c1b, c1c, c4, prevAt,
            Nat.add_sub_cancel, hak1, hak]
        · rw [if_neg c2] at hj hvj
          obtain ⟨i, rfl⟩ : ∃ i, j = i + 1 := ⟨j - 1, by omega⟩
          rw [Nat.add_sub_cancel] at hj hvj
          have hc := h.cell i a v hj hvj
          have c5 : ¬ (i + 1 ≤ k + 1) := by omega
          have n0 : ¬ a = ak := by
            intro e
            have := h.inj hj (by rw [hak, e])
            omega
          have n2 : ¬ a = n := fun e => hfresh i (by rw [hj, e])
          by_cases c6 : i = k + 1
          · subst c6
            rw [hak1] at hj
            cases hj
            rw [hv1] at hvj
            cases hvj
            simp only [n0, if_false, if_true, c1b, c1c, c5, Nat.add_sub_cancel]
          · have n1 : ¬ a = ak1 := by
              intro e
              exact c6 (h.inj hj (by rw [hak1, e]))
            have c7 : ¬ (i + 1 = k + 1 + 1) := by omega
            simp only [n0, n1, n2, if_false, c1b, c1c, c5, c7, Nat.add_sub_cancel, hc]

theorem insertAfter_linked {α : Type} [DecidableEq α] {s : DoublyLinkedList α}
    {as : List Nat} {L : List α} (h : Linked s as L) (targetVal newVal : α) (k fuel : Nat)
    (hk : k + 1 < as.length) (hv : L[k]? = some targetVal)
    (hlast : ∀ j : Nat, k < j → L[j]? ≠ some targetVal) (hf : as.length < fuel) :
    ∃ s1, DoublyLinkedList.insertAfter fuel targetVal newVal s = (Result.ok (Ret.bool true), s1) ∧
      s1.head = s.head ∧ s1.tail = s.tail ∧
      Linked s1 (as.take (k + 1) ++ s.store.length :: as.drop (k + 1))
        (L.take (k + 1) ++ newVal :: L.drop (k + 1)) := by
  obtain ⟨hd, hhd0⟩ : ∃ a, as[0]? = some a := ⟨_, List.getElem?_eq_getElem (by omega)⟩
  have hh : s.head = some hd := by rw [h.head, List.head?_eq_getElem?]; exact hhd0
  have hA := h.alloc (DLLNode.mk newVal none none)
  obtain ⟨f, hfe⟩ : ∃ f, fuel = f + 1 + (as.length - (k + 1)) :=
    ⟨fuel - 1 - (as.length - (k + 1)), by omega⟩
  have hskip := insertAfterLoop_skip hA targetVal (some s.store.length) (k + 1)
    (as.length - (k + 1)) (f + 1) (by omega) (fun j h1 _ => hlast j h1)
  have e1 : k + 1 + (as.length - (k + 1)) = as.length := by omega
  rw [e1, ← hfe, ← hA.tail_eq] at hskip
  obtain ⟨s1, hrun, h1, h2, h3⟩ := insertAfterLoop_hit hA targetVal newVal s.store.length k f
    (by simp) (fun i e => by have := h.bound e; omega) hk hv
  refine ⟨s1, ?_, h1, h2, h3⟩
  simp only [DoublyLinkedList.insertAfter]
  rw [Exec.bind_ok (isEmpty_run s), hh]
  simp only [reduceCtorEq, decide_False, Bool.false_eq_true, if_false]
  rw [Exec.bind_ok (rfl : Exec.newNode newVal s = (Result.ok (some s.store.length),
      { s with store := s.store ++ [DLLNode.mk newVal none none] })),
    Exec.bind_ok (rfl : Exec.getTail _ = (Result.ok _, _))]
  rw [hskip]
  exact hrun

theorem Linked.forward_eq {α : Type} {s : DoublyLinkedList α} {as : List Nat} {L : List α}
    (h : Linked s as L) : forward (s.store.length + 1) s.store s.head = some as := by
  have hl := h.length_le
  have hf := forward_linked h (s.store.length + 1) 0 (Nat.zero_le _) (by omega)
  rwa [← List.head?_eq_getElem?, ← h.head, List.drop_zero] at hf

theorem Linked.backward_eq {α : Type} {s : DoublyLinkedList α} {as : List Nat} {L : List α}
    (h : Linked s as L) : backward (s.store.length + 1) s.store s.tail = some as.reverse := by
  have hl := h.length_le
  have hb := backward_linked h (s.store.length + 1) as.length (Nat.le_refl _) (by omega)
  rwa [← h.tail_eq, List.take_length] at hb

/-- A well-formed list on which `toArray` returns `L` is represented with the values `L`. -/
theorem linked_of_contents {α : Type} {s : DoublyLinkedList α} {L : List α} {fuel : Nat}
    (hwf : WellFormed s) (hL : (DoublyLinkedList.toArray fuel s).1 = Result.ok (Ret.array L)) :
    ∃ as, Linked s as L := by
  obtain ⟨as, L1, h⟩ := hwf.linked
  have := toArray_values h hL
  subst this
  exact ⟨as, h⟩

/-- Without a match on a non-empty represented list `insertAfter` yields `undefined`; the only
thing it leaves behind is the node it allocated, which nothing refers to. -/
theorem insertAfter_absent {α : Type} [DecidableEq α] {s : DoublyLinkedList α}
    {as : List Nat} {L : List α} (h : Linked s as L) (targetVal newVal : α) (fuel : Nat)
    (hpos : 0 < as.length) (hno : ∀ j : Nat, L[j]? ≠ some targetVal) (hf : as.length < fuel) :
    DoublyLinkedList.insertAfter fuel targetVal newVal s
      = (Result.ok Ret.undefined,
          { s with store := s.store ++ [DLLNode.mk newVal none none] }) := by
  obtain ⟨hd, hhd0⟩ : ∃ a, as[0]? = some a := ⟨_, List.getElem?_eq_getElem hpos⟩
  have hh : s.head = some hd := by rw [h.head, List.head?_eq_getElem?]; exact hhd0
  have hA := h.alloc (DLLNode.mk newVal none none)
  have hE : DoublyLinkedList.isEmpty s = (Result.ok false, s) := by
    rw [isEmpty_run, hh]
    rfl
  simp only [DoublyLinkedList.insertAfter]
  rw [Exec.bind_ok hE]
  simp only [Bool.false_eq_true, if_false]
  rw [Exec.bind_ok (rfl : Exec.newNode newVal s = (Result.ok (some s.store.length),
      { s with store := s.store ++ [DLLNode.mk newVal none none] })),
    Exec.bind_ok (rfl : Exec.getTail _ = (Result.ok _, _))]
  exact insertAfterLoop_absent hA targetVal (some s.store.length) fuel hf hno

/-- When the tail of a represented list holds the target, `insertAfter` raises a `TypeError`:
the tail's `next` is `null` and the method assigns to its `prev`. -/
theorem insertAfter_tail_raises {α : Type} [DecidableEq α] {s : DoublyLinkedList α}
    {as : List Nat} {L : List α} (h : Linked s as L) (targetVal newVal : α) (fuel q : Nat)
    (hq : as.length = q + 1) (hv : L[q]? = some targetVal) :
    (DoublyLinkedList.insertAfter (fuel + 1) targetVal newVal s).1
      = Result.fault Fault.typeError := by
  obtain ⟨hd, hhd0⟩ : ∃ a, as[0]? = some a := ⟨_, List.getElem?_eq_getElem (by omega)⟩
  obtain ⟨aq, haq⟩ : ∃ a, as[q]? = some a := ⟨_, List.getElem?_eq_getElem (by omega)⟩
  have hh : s.head = some hd := by rw [h.head, List.head?_eq_getElem?]; exact hhd0
  have ht : s.tail = some aq := by
    rw [h.tail, List.getLast?_eq_getElem?, hq]; simpa using haq
  have hA := h.alloc (DLLNode.mk newVal none none)
  have hc := hA.cell _ _ _ haq hv
  rw [List.getElem?_eq_none (show as.length ≤ q + 1 by omega)] at hc
  have hbq : aq < s.store.length := h.bound haq
  have hne : s.store.length ≠ aq := by omega
  have hn : (s.store ++ [DLLNode.mk newVal none none])[s.store.length]?
      = some (DLLNode.mk newVal none none) := by simp
  have e3 : ((s.store ++ [DLLNode.mk newVal none none]).set s.store.length
        (DLLNode.mk newVal none (some aq)))[aq]?
      = some (DLLNode.mk targetVal none (prevAt as q)) := by
    rw [List.getElem?_set, if_neg hne]; exact hc
  have e4 : ((s.store ++ [DLLNode.mk newVal none none]).set s.store.length
        (DLLNode.mk newVal none (some aq)))[s.store.length]?
      = some (DLLNode.mk newVal none (some aq)) := by
    rw [List.getElem?_set, if_pos rfl, if_pos (by simp)]
  have e5 : (((s.store ++ [DLLNode.mk newVal none none]).set s.store.length
        (DLLNode.mk newVal none (some aq))).set s.store.length
        (DLLNode.mk newVal none (some aq)))[aq]?
      = some (DLLNode.mk targetVal none (prevAt as q)) := by
    rw [List.getElem?_set, if_neg hne]; exact e3
  have hE : DoublyLinkedList.isEmpty s = (Result.ok false, s) := by
    rw [isEmpty_run, hh]
    rfl
  have hT : Exec.getTail { s with store := s.store ++ [DLLNode.mk newVal none none] }
      = (Result.ok (some aq), { s with store := s.store ++ [DLLNode.mk newVal none none] }) := by
    show (Result.ok s.tail, _) = _
    rw [ht]
  simp only [DoublyLinkedList.insertAfter]
  rw [Exec.bind_ok hE]
  simp only [Bool.false_eq_true, if_false]
  rw [Exec.bind_ok (rfl : Exec.newNode newVal s = (Result.ok (some s.store.length),
      { s with store := s.store ++ [DLLNode.mk newVal none none] })),
    Exec.bind_ok hT]
  simp only [DoublyLinkedList.insertAfterLoop]
  rw [Exec.bind_ok (Exec.node_some hc)]
  dsimp only
  rw [if_pos rfl, Exec.bind_ok hT, if_pos rfl,
    Exec.bind_ok (rfl : Exec.setTail (some s.store.length) _ = (Result.ok (), _)),
    Exec.bind_ok (Exec.setPrev_some (some aq) hn), Exec.bind_ok (Exec.node_some e3)]
  dsimp only
  rw [Exec.bind_ok (Exec.setNext_some none e4), Exec.bind_ok (Exec.node_some e5)]
  dsimp only
  rw [Exec.bind_fault (rfl : Exec.setPrev none _ _ = (Result.fault Fault.typeError, _))]

theorem not_mem_eraseIdx_of_nodup {as : List Nat} (hnd : as.Nodup) {m a : Nat}
    (ha : as[m]? = some a) : a ∉ as.eraseIdx m := by
  intro hmem
  obtain ⟨j, hj, heq⟩ := List.getElem_of_mem hmem
  have hj2 : (as.eraseIdx m)[j]? = some a := by rw [List.getElem?_eq_getElem hj, heq]
  rw [List.getElem?_eraseIdx] at hj2
  obtain ⟨hm1, hm2⟩ := List.getElem?_eq_some_iff.1 ha
  by_cases c : j < m
  · rw [if_pos c] at hj2
    obtain ⟨hj1, hj3⟩ := List.getElem?_eq_some_iff.1 hj2
    have := (List.Nodup.getElem_inj_iff hnd).1 (hj3.trans hm2.symm)
    omega
  · rw [if_neg c] at hj2
    obtain ⟨hj1, hj3⟩ := List.getElem?_eq_some_iff.1 hj2
    have := (List.Nodup.getElem_inj_iff hnd).1 (hj3.trans hm2.symm)
    omega

theorem exists_last_occurrence {α : Type} (t : α) :
    ∀ L : List α, (∃ j : Nat, L[j]? = some t) →
      ∃ k : Nat, L[k]? = some t ∧ ∀ j : Nat, k < j → L[j]? ≠ some t := by
  intro L
  induction L with
  | nil => rintro ⟨j, hj⟩; simp at hj
  | cons x xs ih =>
    intro hex
    by_cases hxs : ∃ j : Nat, xs[j]? = some t
    · obtain ⟨k, hk, hlast⟩ := ih hxs
      refine ⟨k + 1, by rw [List.getElem?_cons_succ]; exact hk, ?_⟩
      intro j hj
      obtain ⟨d, rfl⟩ : ∃ d, j = d + 1 := ⟨j - 1, by omega⟩
      rw [List.getElem?_cons_succ]
      exact hlast d (by omega)
    · obtain ⟨j, hj⟩ := hex
      cases j with
      | zero =>
        refine ⟨0, hj, ?_⟩
        intro j hj0
        obtain ⟨d, rfl⟩ : ∃ d, j = d + 1 := ⟨j - 1, by omega⟩
        rw [List.getElem?_cons_succ]
        exact fun e => hxs ⟨d, e⟩
      | succ j =>
        rw [List.getElem?_cons_succ] at hj
        exact absurd ⟨j, hj⟩ hxs

/-- Every call that returns leaves a well-formed list well formed. -/
theorem returning_calls_keep_invariant {α : Type} [DecidableEq α] (s : DoublyLinkedList α)
    (fuel : Nat) (hwf : WellFormed s) (hf : s.store.length < fuel) :
    (∀ v r s1, DoublyLinkedList.insertAtFront v s = (Result.ok r, s1) → WellFormed s1) ∧
    (∀ v r s1, DoublyLinkedList.insertAtBack v s = (Result.ok r, s1) → WellFormed s1) ∧
    (∀ S r s1, DoublyLinkedList.insertAtBackMany S s = (Result.ok r, s1) → WellFormed s1) ∧
    (∀ t v r s1, DoublyLinkedList.insertAfter fuel t v s = (Result.ok r, s1) →
      WellFormed s1) ∧
    (∀ r s1, DoublyLinkedList.removeMiddleNode fuel s = (Result.ok r, s1) → WellFormed s1) := by
  obtain ⟨as, L, h⟩ := hwf.linked
  have hlen := h.length_le
  refine ⟨?_, ?_, ?_, ?_, ?_⟩
  · intro v r s1 hrun
    obtain ⟨s2, h2, hl2⟩ := insertAtFront_linked h v
    rw [h2] at hrun
    cases hrun
    exact hl2.wellFormed
  · intro v r s1 hrun
    obtain ⟨s2, h2, hl2⟩ := insertAtBack_linked h v
    rw [h2] at hrun
    cases hrun
    exact hl2.wellFormed
  · intro S r s1 hrun
    obtain ⟨s2, as2, h2, hl2⟩ := insertAtBackMany_linked S s as L h
    rw [h2] at hrun
    cases hrun
    exact hl2.wellFormed
  · intro t v r s1 hrun
    rcases Nat.eq_zero_or_pos as.length with h0 | hpos
    · have hh : s.head = none := by rw [h.head, List.length_eq_zero.1 h0]; rfl
      have hE : DoublyLinkedList.isEmpty s = (Result.ok true, s) := by
        rw [isEmpty_run, hh]
        rfl
      simp only [DoublyLinkedList.insertAfter] at hrun
      rw [Exec.bind_ok hE] at hrun
      simp only [if_true, Exec.pure_run] at hrun
      cases hrun
      exact hwf
    · by_cases hex : ∃ j : Nat, L[j]? = some t
      · obtain ⟨k, hk, hlast⟩ := exists_last_occurrence t L hex
        have hkl : k < as.length := by
          rw [← h.len]
          exact (List.getElem?_eq_some_iff.1 hk).1
        rcases Nat.lt_or_ge (k + 1) as.length with hlt | hge
        · obtain ⟨s2, h2, _, _, hl2⟩ := insertAfter_linked h t v k fuel hlt hk hlast (by omega)
          rw [h2] at hrun
          cases hrun
          exact hl2.wellFormed
        · obtain ⟨f, rfl⟩ : ∃ f, fuel = f + 1 := ⟨fuel - 1, by omega⟩
          have := insertAfter_tail_raises h t v f k (by omega) hk
          rw [hrun] at this
          cases this
      · have hno : ∀ j : Nat, L[j]? ≠ some t := fun j e => hex ⟨j, e⟩
        rw [insertAfter_absent h t v fuel hpos hno (by omega)] at hrun
        cases hrun
        exact (h.alloc _).wellFormed
  · intro r s1 hrun
    rcases Nat.eq_zero_or_pos as.length with h0 | hpos
    · have has : as = [] := List.length_eq_zero.1 h0
      subst has
      rw [removeMiddleNode_empty h fuel] at hrun
      cases hrun
      exact hwf
    · obtain ⟨v, s2, _, h2, hl2⟩ := removeMiddleNode_linked h fuel hpos (by omega)
      rw [h2] at hrun
      cases hrun
      exact hl2.wellFormed

/-- On a well-formed list every method runs to completion and returns a value, `insertAfter`
included unless the tail holds the target. -/
theorem calls_return {α : Type} [DecidableEq α] (s : DoublyLinkedList α) (fuel : Nat)
    (hwf : WellFormed s) (hf : s.store.length < fuel) :
    (∀ v, ∃ s1, DoublyLinkedList.insertAtFront v s = (Result.ok Ret.this, s1)) ∧
    (∀ v, ∃ s1, DoublyLinkedList.insertAtBack v s = (Result.ok Ret.this, s1)) ∧
    (∀ S, ∃ s1, DoublyLinkedList.insertAtBackMany S s = (Result.ok Ret.this, s1)) ∧
    (∃ r s1, DoublyLinkedList.removeMiddleNode fuel s = (Result.ok r, s1)) ∧
    (∃ b, DoublyLinkedList.isEmpty s = (Result.ok b, s)) ∧
    (∃ L, DoublyLinkedList.toArray fuel s = (Result.ok (Ret.array L), s)) ∧
    (∀ t v, DoublyLinkedList.insertBefore t v s = (Result.ok Ret.undefined, s)) ∧
    (∀ t v L, (DoublyLinkedList.toArray fuel s).1 = Result.ok (Ret.array L) →
      L.getLast? ≠ some t →
      ∃ r s1, DoublyLinkedList.insertAfter fuel t v s = (Result.ok r, s1)) := by
  obtain ⟨as, L, h⟩ := hwf.linked
  have hlen := h.length_le
  refine ⟨?_, ?_, ?_, ?_, ⟨_, isEmpty_run s⟩, ⟨L, toArray_linked h fuel (by omega)⟩,
    fun _ _ => rfl, ?_⟩
  · intro v
    obtain ⟨s2, h2, _⟩ := insertAtFront_linked h v
    exact ⟨s2, h2⟩
  · intro v
    obtain ⟨s2, h2, _⟩ := insertAtBack_linked h v
    exact ⟨s2, h2⟩
  · intro S
    obtain ⟨s2, _, h2, _⟩ := insertAtBackMany_linked S s as L h
    exact ⟨s2, h2⟩
  · rcases Nat.eq_zero_or_pos as.length with h0 | hpos
    · have has : as = [] := List.length_eq_zero.1 h0
      subst has
      exact ⟨_, _, removeMiddleNode_empty h fuel⟩
    · obtain ⟨v, s2, _, h2, _⟩ := removeMiddleNode_linked h fuel hpos (by omega)
      exact ⟨_, s2, h2⟩
  · intro t v L1 hL1 hlastne
    have := toArray_values h hL1
    subst this
    rcases Nat.eq_zero_or_pos as.length with h0 | hpos
    · have hh : s.head = none := by rw [h.head, List.length_eq_zero.1 h0]; rfl
      have hE : DoublyLinkedList.isEmpty s = (Result.ok true, s) := by
        rw [isEmpty_run, hh]
        rfl
      refine ⟨Ret.bool false, s, ?_⟩
      simp only [DoublyLinkedList.insertAfter]
      rw [Exec.bind_ok hE]
      rfl
    · by_cases hex : ∃ j : Nat, L1[j]? = some t
      · obtain ⟨k, hk, hlast⟩ := exists_last_occurrence t L1 hex
        have hkl : k < as.length := by
          rw [← h.len]
          exact (List.getElem?_eq_some_iff.1 hk).1
        rcases Nat.lt_or_ge (k + 1) as.length with hlt | hge
        · obtain ⟨s2, h2, _⟩ := insertAfter_linked h t v k fuel hlt hk hlast (by omega)
          exact ⟨_, s2, h2⟩
        · exfalso
          apply hlastne
          rw [List.getLast?_eq_getElem?, h.len]
          have : as.length - 1 = k := by omega
          rw [this]
          exact hk
      · have hno : ∀ j : Nat, L1[j]? ≠ some t := fun j e => hex ⟨j, e⟩
        exact ⟨_, _, insertAfter_absent h t v fuel hpos hno (by omega)⟩

/-! ## The claims -/

/-- C1. On a well-formed list with contents `L`, `removeMiddleNode` returns `null` and leaves
the list as it is when `L` is empty; otherwise it returns the element of `L` at index
`L.length / 2` and afterwards `toArray` returns `L` with that index erased. -/
theorem removeMiddleNode_middle {α : Type} (s : DoublyLinkedList α) (L : List α)
    (fuel0 fuel : Nat) (hwf : WellFormed s)
    (hL : (DoublyLinkedList.toArray fuel0 s).1 = Result.ok (Ret.array L))
    (hf : L.length ≤ fuel) :
    (L = [] → DoublyLinkedList.removeMiddleNode fuel s = (Result.ok Ret.null, s)) ∧
    (L ≠ [] → ∃ v s1, L[L.length / 2]? = some v ∧
      DoublyLinkedList.removeMiddleNode fuel s = (Result.ok (Ret.data v), s1) ∧
      ∀ f, L.length ≤ f →
        DoublyLinkedList.toArray f s1
          = (Result.ok (Ret.array (L.eraseIdx (L.length / 2))), s1)) := by
  obtain ⟨as, h⟩ := linked_of_contents hwf hL
  constructor
  · intro hnil
    subst hnil
    have : as = [] := List.length_eq_zero.1 h.len.symm
    subst this
    exact removeMiddleNode_empty h fuel
  · intro hne
    have hpos : 0 < as.length := by
      rw [← h.len]
      exact List.length_pos.2 hne
    obtain ⟨v, s1, hv, hrun, hl1⟩ := removeMiddleNode_linked h fuel hpos (by rw [← h.len]; exact hf)
    rw [← h.len] at hv hl1
    refine ⟨v, s1, hv, hrun, ?_⟩
    intro f hfl
    apply toArray_linked hl1
    rw [List.length_eraseIdx, ← h.len]
    have : L.length / 2 < L.length := by rw [h.len]; omega
    simp only [this, if_true]
    rw [h.len] at hfl ⊢
    omega

theorem removeMiddleNode_middle_witness :
    WellFormed sampleFive ∧
    (DoublyLinkedList.toArray 6 sampleFive).1 = Result.ok (Ret.array [1, 2, 3, 4, 5]) ∧
    (DoublyLinkedList.removeMiddleNode 5 sampleFive).1 = Result.ok (Ret.data 3) ∧
    (([1, 2, 3, 4, 5] : List Int) ≠ [] → ∃ v s1,
      ([1, 2, 3, 4, 5] : List Int)[([1, 2, 3, 4, 5] : List Int).length / 2]? = some v ∧
      DoublyLinkedList.removeMiddleNode 5 sampleFive = (Result.ok (Ret.data v), s1) ∧
      ∀ f, ([1, 2, 3, 4, 5] : List Int).length ≤ f →
        DoublyLinkedList.toArray f s1
          = (Result.ok (Ret.array (([1, 2, 3, 4, 5] : List Int).eraseIdx
              (([1, 2, 3, 4, 5] : List Int).length / 2))), s1)) :=
  ⟨by decide, by decide, by decide,
    (removeMiddleNode_middle sampleFive [1, 2, 3, 4, 5] 6 5 (by decide) (by decide)
      (by decide)).2⟩

/-- C2, as stated, fails on `[1, 2, 3, 4]` (length `2k` with `k = 2`): the call does not
return the element at index `k - 1` and leave the list with that index erased; it returns
`3`, the element at index `k`. -/
theorem removeMiddleNode_even_not_earlier :
    WellFormed sampleFour ∧
    (DoublyLinkedList.toArray 5 sampleFour).1 = Result.ok (Ret.array [1, 2, 3, 4]) ∧
    (DoublyLinkedList.removeMiddleNode 4 sampleFour).1 = Result.ok (Ret.data 3) ∧
    ¬ (∃ v s1, ([1, 2, 3, 4] : List Int)[2 - 1]? = some v ∧
        DoublyLinkedList.removeMiddleNode 4 sampleFour = (Result.ok (Ret.data v), s1) ∧
        DoublyLinkedList.toArray 4 s1
          = (Result.ok (Ret.array (([1, 2, 3, 4] : List Int).eraseIdx (2 - 1))), s1)) := by
  refine ⟨by decide, by decide, by decide, ?_⟩
  rintro ⟨v, s1, hv, hrun, _⟩
  have h3 : (DoublyLinkedList.removeMiddleNode 4 sampleFour).1 = Result.ok (Ret.data 3) := by
    decide
  rw [hrun] at h3
  have hv2 : v = 2 := by
    simp at hv
    exact hv.symm
  subst hv2
  simp at h3

/-- C2, amended. On a well-formed list with contents `L` of length `2k`, `k ≥ 1`,
`removeMiddleNode` removes and returns the later of the two middle candidates: it returns the
element at index `k`, afterwards `toArray` returns `L` with index `k` erased, and the chain from
`head` is the old chain without its node at position `k`. -/
theorem removeMiddleNode_even_later {α : Type} (s : DoublyLinkedList α) (L : List α)
    (k fuel0 fuel : Nat) (hwf : WellFormed s)
    (hL : (DoublyLinkedList.toArray fuel0 s).1 = Result.ok (Ret.array L))
    (hk : 1 ≤ k) (hlen : L.length = 2 * k) (hf : L.length ≤ fuel) :
    ∃ v s1, L[k]? = some v ∧
      DoublyLinkedList.removeMiddleNode fuel s = (Result.ok (Ret.data v), s1) ∧
      (∀ f, L.length ≤ f →
        DoublyLinkedList.toArray f s1 = (Result.ok (Ret.array (L.eraseIdx k)), s1)) ∧
      ∃ as, forward (s.store.length + 1) s.store s.head = some as ∧
        forward (s1.store.length + 1) s1.store s1.head = some (as.eraseIdx k) := by
  obtain ⟨as, h⟩ := linked_of_contents hwf hL
  have hal : as.length = 2 * k := by rw [← h.len]; exact hlen
  have hm : as.length / 2 = k := by omega
  obtain ⟨v, s1, hv, hrun, hl1⟩ := removeMiddleNode_linked h fuel (by omega) (by omega)
  rw [hm] at hv hl1
  refine ⟨v, s1, hv, hrun, ?_, as, h.forward_eq, hl1.forward_eq⟩
  intro f hfl
  apply toArray_linked hl1
  rw [List.length_eraseIdx]
  have : k < as.length := by omega
  simp only [this, if_true]
  omega

theorem removeMiddleNode_even_later_witness :
    WellFormed sampleFour ∧
    (DoublyLinkedList.toArray 5 sampleFour).1 = Result.ok (Ret.array [1, 2, 3, 4]) ∧
    1 ≤ 2 ∧ ([1, 2, 3, 4] : List Int).length = 2 * 2 ∧ ([1, 2, 3, 4] : List Int).length ≤ 4 ∧
    ∃ v s1, ([1, 2, 3, 4] : List Int)[2]? = some v ∧
      DoublyLinkedList.removeMiddleNode 4 sampleFour = (Result.ok (Ret.data v), s1) ∧
      (∀ f, ([1, 2, 3, 4] : List Int).length ≤ f →
        DoublyLinkedList.toArray f s1
          = (Result.ok (Ret.array (([1, 2, 3, 4] : List Int).eraseIdx 2)), s1)) ∧
      ∃ as, forward (sampleFour.store.length + 1) sampleFour.store sampleFour.head = some as ∧
        forward (s1.store.length + 1) s1.store s1.head = some (as.eraseIdx 2) :=
  ⟨by decide, by decide, by decide, by decide, by decide,
    removeMiddleNode_even_later sampleFour [1, 2, 3, 4] 2 5 4 (by decide) (by decide)
      (by decide) (by decide) (by decide)⟩

/-- C3. `insertAtBackMany(S)` on a well-formed list with contents `L` returns the list itself
and leaves contents `L ++ S`; on a new empty list it leaves contents `S`. -/
theorem insertAtBackMany_appends {α : Type} (s : DoublyLinkedList α) (L S : List α)
    (fuel0 : Nat) (hwf : WellFormed s)
    (hL : (DoublyLinkedList.toArray fuel0 s).1 = Result.ok (Ret.array L)) :
    (∃ s1, DoublyLinkedList.insertAtBackMany S s = (Result.ok Ret.this, s1) ∧
      ∀ f, (L ++ S).length < f →
        DoublyLinkedList.toArray f s1 = (Result.ok (Ret.array (L ++ S)), s1)) ∧
    (∃ s1, DoublyLinkedList.insertAtBackMany S DoublyLinkedList.empty
        = (Result.ok Ret.this, s1) ∧
      ∀ f, S.length < f → DoublyLinkedList.toArray f s1 = (Result.ok (Ret.array S), s1)) := by
  obtain ⟨as, h⟩ := linked_of_contents hwf hL
  constructor
  · obtain ⟨s1, as1, hrun, hl1⟩ := insertAtBackMany_linked S s as L h
    refine ⟨s1, hrun, ?_⟩
    intro f hfl
    apply toArray_linked hl1
    rw [← hl1.len]
    exact hfl
  · obtain ⟨s1, as1, hrun, hl1⟩ := insertAtBackMany_linked S _ _ _ (empty_linked (α := α))
    rw [List.nil_append] at hl1
    refine ⟨s1, hrun, ?_⟩
    intro f hfl
    apply toArray_linked hl1
    rw [← hl1.len]
    exact hfl

theorem insertAtBackMany_appends_witness :
    WellFormed secondThreeList ∧
    (DoublyLinkedList.toArray 4 secondThreeList).1 = Result.ok (Ret.array [4, 5, 6]) ∧
    (∃ s1, DoublyLinkedList.insertAtBackMany [7, 8] secondThreeList
        = (Result.ok Ret.this, s1) ∧
      ∀ f, (([4, 5, 6] : List Int) ++ [7, 8]).length < f →
        DoublyLinkedList.toArray f s1
          = (Result.ok (Ret.array (([4, 5, 6] : List Int) ++ [7, 8])), s1)) :=
  ⟨by decide, by decide,
    (insertAtBackMany_appends secondThreeList [4, 5, 6] [7, 8] 4 (by decide) (by decide)).1⟩

/-- C4. `insertAtFront(v)` on a well-formed list with contents `L` returns the list itself and
afterwards `toArray` returns `v` followed by `L`. -/
theorem insertAtFront_prepends {α : Type} (s : DoublyLinkedList α) (L : List α) (v : α)
    (fuel0 : Nat) (hwf : WellFormed s)
    (hL : (DoublyLinkedList.toArray fuel0 s).1 = Result.ok (Ret.array L)) :
    ∃ s1, DoublyLinkedList.insertAtFront v s = (Result.ok Ret.this, s1) ∧
      ∀ f, (v :: L).length < f →
        DoublyLinkedList.toArray f s1 = (Result.ok (Ret.array (v :: L)), s1) := by
  obtain ⟨as, h⟩ := linked_of_contents hwf hL
  obtain ⟨s1, hrun, hl1⟩ := insertAtFront_linked h v
  refine ⟨s1, hrun, ?_⟩
  intro f hfl
  apply toArray_linked hl1
  rw [← hl1.len]
  exact hfl

theorem insertAtFront_prepends_witness :
    WellFormed secondThreeList ∧
    (DoublyLinkedList.toArray 4 secondThreeList).1 = Result.ok (Ret.array [4, 5, 6]) ∧
    ∃ s1, DoublyLinkedList.insertAtFront 9 secondThreeList = (Result.ok Ret.this, s1) ∧
      ∀ f, ((9 : Int) :: [4, 5, 6]).length < f →
        DoublyLinkedList.toArray f s1 = (Result.ok (Ret.array (9 :: [4, 5, 6])), s1) :=
  ⟨by decide, by decide,
    insertAtFront_prepends secondThreeList [4, 5, 6] 9 4 (by decide) (by decide)⟩

/-- C5. On a well-formed list with contents `L`, when the last occurrence of `targetVal` in `L`
is at an index `i` that is not the last index, `insertAfter(targetVal, newVal)` returns `true`,
afterwards `toArray` returns `L` with `newVal` inserted at index `i + 1`, and `head` and `tail`
are unchanged. -/
theorem insertAfter_inserts {α : Type} [DecidableEq α] (s : DoublyLinkedList α) (L : List α)
    (targetVal newVal : α) (i fuel0 fuel : Nat) (hwf : WellFormed s)
    (hL : (DoublyLinkedList.toArray fuel0 s).1 = Result.ok (Ret.array L))
    (hi : i + 1 < L.length) (hv : L[i]? = some targetVal)
    (hlast : ∀ j : Nat, i < j → L[j]? ≠ some targetVal) (hf : L.length < fuel) :
    ∃ s1, DoublyLinkedList.insertAfter fuel targetVal newVal s
        = (Result.ok (Ret.bool true), s1) ∧
      (∀ f, L.length + 1 < f →
        DoublyLinkedList.toArray f s1
          = (Result.ok (Ret.array (L.take (i + 1) ++ newVal :: L.drop (i + 1))), s1)) ∧
      s1.head = s.head ∧ s1.tail = s.tail := by
  obtain ⟨as, h⟩ := linked_of_contents hwf hL
  obtain ⟨s1, hrun, h1, h2, hl1⟩ := insertAfter_linked h targetVal newVal i fuel
    (by rw [← h.len]; exact hi) hv hlast (by rw [← h.len]; exact hf)
  refine ⟨s1, hrun, ?_, h1, h2⟩
  intro f hfl
  apply toArray_linked hl1
  rw [← hl1.len]
  simp only [List.length_append, List.length_take, List.length_cons, List.length_drop]
  omega

theorem insertAfter_inserts_witness :
    WellFormed secondThreeList ∧
    (DoublyLinkedList.toArray 4 secondThreeList).1 = Result.ok (Ret.array [4, 5, 6]) ∧
    (DoublyLinkedList.toArray 5 (DoublyLinkedList.insertAfter 4 5 3 secondThreeList).2).1
      = Result.ok (Ret.array [4, 5, 3, 6]) ∧
    ∃ s1, DoublyLinkedList.insertAfter 4 5 3 secondThreeList
        = (Result.ok (Ret.bool true), s1) ∧
      (∀ f, ([4, 5, 6] : List Int).length + 1 < f →
        DoublyLinkedList.toArray f s1
          = (Result.ok (Ret.array (([4, 5, 6] : List Int).take (1 + 1) ++
              3 :: ([4, 5, 6] : List Int).drop (1 + 1))), s1)) ∧
      s1.head = secondThreeList.head ∧ s1.tail = secondThreeList.tail :=
  ⟨by decide, by decide, by decide,
    insertAfter_inserts secondThreeList [4, 5, 6] 5 3 1 4 4 (by decide) (by decide)
      (by decide) (by decide)
      (by
        intro j hj
        obtain ⟨d, rfl⟩ : ∃ d, j = d + 2 := ⟨j - 2, by omega⟩
        cases d with
        | zero => decide
        | succ d => simp)
      (by decide)⟩

/-- C6, at the failing input `[4, 5, 6]`, `insertAfter(6, 3)`: the match is the tail, the call
raises a `TypeError` at `runner.next.prev = afterNode` instead of returning `true`; `tail`
already points at the new node, which was never linked in, so `toArray` still returns
`[4, 5, 6]` and the list is no longer well formed. -/
theorem insertAfter_tail_match_raises :
    WellFormed secondThreeList ∧
    (DoublyLinkedList.toArray 4 secondThreeList).1 = Result.ok (Ret.array [4, 5, 6]) ∧
    (DoublyLinkedList.insertAfter 4 6 3 secondThreeList).1 = Result.fault Fault.typeError ∧
    (DoublyLinkedList.insertAfter 4 6 3 secondThreeList).2.tail = some 3 ∧
    (DoublyLinkedList.toArray 5 (DoublyLinkedList.insertAfter 4 6 3 secondThreeList).2).1
      = Result.ok (Ret.array [4, 5, 6]) ∧
    ¬ WellFormed (DoublyLinkedList.insertAfter 4 6 3 secondThreeList).2 := by
  refine ⟨by decide, by decide, by decide, by decide, by decide, by decide⟩

/-- C7, at the failing input `[4, 5, 6]`, `insertAfter(99, 3)`: no node matches, the loop ends
and the method falls off its end, so the call yields `undefined`, not the boolean `false`;
`toArray`, `head` and `tail` are unchanged.  On the empty list the call does return `false`. -/
theorem insertAfter_absent_undefined :
    WellFormed secondThreeList ∧
    (DoublyLinkedList.toArray 4 secondThreeList).1 = Result.ok (Ret.array [4, 5, 6]) ∧
    (DoublyLinkedList.insertAfter 4 99 3 secondThreeList).1 = Result.ok Ret.undefined ∧
    (DoublyLinkedList.insertAfter 4 99 3 secondThreeList).1 ≠ Result.ok (Ret.bool false) ∧
    (DoublyLinkedList.toArray 4 (DoublyLinkedList.insertAfter 4 99 3 secondThreeList).2).1
      = Result.ok (Ret.array [4, 5, 6]) ∧
    (DoublyLinkedList.insertAfter 4 99 3 secondThreeList).2.head = secondThreeList.head ∧
    (DoublyLinkedList.insertAfter 4 99 3 secondThreeList).2.tail = secondThreeList.tail ∧
    (DoublyLinkedList.insertAfter 4 99 3 (DoublyLinkedList.empty : DoublyLinkedList Int)).1
      = Result.ok (Ret.bool false) := by
  refine ⟨by decide, by decide, by decide, by decide, by decide, by decide, by decide,
    by decide⟩

/-- C8, at the failing input `[7]`, `insertAfter(7, 1)`: the call does not run to completion,
it raises a `TypeError`. -/
theorem insertAfter_raises_on_single :
    WellFormed sampleOne ∧
    (DoublyLinkedList.toArray 2 sampleOne).1 = Result.ok (Ret.array [7]) ∧
    (DoublyLinkedList.insertAfter 2 7 1 sampleOne).1 = Result.fault Fault.typeError := by
  refine ⟨by decide, by decide, by decide⟩

/-- C9, at the failing sequence `insertAtBack(1)`, `insertAfter(1, 2)` from the empty list: the
second call raises a `TypeError` after moving `tail` to the new node; in the state it leaves,
following `next` from `head` meets only node `0` and never reaches `tail`, while following
`prev` from `tail` meets nodes `1, 0`. -/
theorem invariant_broken_after_tail_insertAfter :
    (DoublyLinkedList.insertAtBack 1 (DoublyLinkedList.empty : DoublyLinkedList Int)).1
      = Result.ok Ret.this ∧
    WellFormed (DoublyLinkedList.insertAtBack 1
      (DoublyLinkedList.empty : DoublyLinkedList Int)).2 ∧
    (DoublyLinkedList.insertAfter 2 1 2 (DoublyLinkedList.insertAtBack 1
      (DoublyLinkedList.empty : DoublyLinkedList Int)).2).1 = Result.fault Fault.typeError ∧
    (DoublyLinkedList.insertAfter 2 1 2 (DoublyLinkedList.insertAtBack 1
      (DoublyLinkedList.empty : DoublyLinkedList Int)).2).2
      = { store := [DLLNode.mk 1 none none, DLLNode.mk 2 none (some 0)],
          head := some 0, tail := some 1 } ∧
    forward 3 [DLLNode.mk (1 : Int) none none, DLLNode.mk 2 none (some 0)] (some 0)
      = some [0] ∧
    backward 3 [DLLNode.mk (1 : Int) none none, DLLNode.mk 2 none (some 0)] (some 1)
      = some [1, 0] ∧
    ¬ WellFormed (DoublyLinkedList.insertAfter 2 1 2 (DoublyLinkedList.insertAtBack 1
      (DoublyLinkedList.empty : DoublyLinkedList Int)).2).2 := by
  refine ⟨by decide, by decide, by decide, by decide, by decide, by decide, by decide⟩

/-- C10. On a list satisfying the head/tail invariant `removeMiddleNode` returns (the loop
ends within the fuel of one step per stored node), the list it leaves satisfies the invariant
again, the node it removed (the one at position `length / 2` of the old chain) is met neither
walking `next` from `head` nor walking `prev` from `tail`, and a one-element list is left with
`head` and `tail` both `null`. -/
theorem removeMiddleNode_preserves_invariant {α : Type} (s : DoublyLinkedList α) (fuel : Nat)
    (hwf : WellFormed s) (hf : s.store.length ≤ fuel) :
    ∃ r s1, DoublyLinkedList.removeMiddleNode fuel s = (Result.ok r, s1) ∧ WellFormed s1 ∧
      ∃ as rest, forward (s.store.length + 1) s.store s.head = some as ∧
        forward (s1.store.length + 1) s1.store s1.head = some rest ∧
        backward (s1.store.length + 1) s1.store s1.tail = some rest.reverse ∧
        rest = as.eraseIdx (as.length / 2) ∧
        (∀ a, as[as.length / 2]? = some a → a ∉ rest ∧ a ∉ rest.reverse) ∧
        (as.length = 1 → s1.head = none ∧ s1.tail = none) := by
  obtain ⟨as, L, h⟩ := hwf.linked
  rcases Nat.eq_zero_or_pos as.length with h0 | hpos
  · have has : as = [] := List.length_eq_zero.1 h0
    subst has
    refine ⟨Ret.null, s, removeMiddleNode_empty h fuel, hwf, [], [], h.forward_eq,
      h.forward_eq, h.backward_eq, rfl, ?_, ?_⟩
    · intro a ha
      simp at ha
    · intro h1
      simp at h1
  · obtain ⟨v, s1, _, hrun, hl1⟩ := removeMiddleNode_linked h fuel hpos
      (Nat.le_trans h.length_le hf)
    refine ⟨Ret.data v, s1, hrun, hl1.wellFormed, as, _, h.forward_eq, hl1.forward_eq,
      hl1.backward_eq, rfl, ?_, ?_⟩
    · intro a ha
      have := not_mem_eraseIdx_of_nodup h.nodup ha
      exact ⟨this, fun hm => this (List.mem_reverse.1 hm)⟩
    · intro h1
      have hnil : as.eraseIdx (as.length / 2) = [] := by
        apply List.length_eq_zero.1
        rw [List.length_eraseIdx, h1]
        rfl
      rw [hnil] at hl1
      exact ⟨hl1.head, hl1.tail⟩

theorem removeMiddleNode_preserves_invariant_witness :
    WellFormed sampleFive ∧ sampleFive.store.length ≤ 5 ∧
    ∃ r s1, DoublyLinkedList.removeMiddleNode 5 sampleFive = (Result.ok r, s1) ∧
      WellFormed s1 ∧
      ∃ as rest, forward (sampleFive.store.length + 1) sampleFive.store sampleFive.head
          = some as ∧
        forward (s1.store.length + 1) s1.store s1.head = some rest ∧
        backward (s1.store.length + 1) s1.store s1.tail = some rest.reverse ∧
        rest = as.eraseIdx (as.length / 2) ∧
        (∀ a, as[as.length / 2]? = some a → a ∉ rest ∧ a ∉ rest.reverse) ∧
        (as.length = 1 → s1.head = none ∧ s1.tail = none) :=
  ⟨by decide, by decide,
    removeMiddleNode_preserves_invariant sampleFive 5 (by decide) (by decide)⟩

/-! ## `isEmpty`, `insertBefore` and `toArray` -/

/-- The `toArray` loop writes nothing: whatever it yields, the state is the one it started in. -/
theorem toArrayLoop_state {α : Type} :
    ∀ (fuel : Nat) (vals : List α) (x : Option Nat) (s : DoublyLinkedList α),
      (DoublyLinkedList.toArrayLoop fuel vals x s).2 = s := by
  intro fuel
  induction fuel with
  | zero => intro vals x s; rfl
  | succ fuel ih =>
    intro vals x s
    cases x with
    | none => rfl
    | some a =>
      simp only [DoublyLinkedList.toArrayLoop, Exec.bind_run, Exec.andThen, Exec.node]
      cases hn : s.store[a]? with
      | none => rfl
      | some n => exact ih _ _ s

/-- An array the `toArray` loop returns extends `vals`, by at least one value when the runner
is not `null`. -/
theorem toArrayLoop_length {α : Type} :
    ∀ (fuel : Nat) (vals : List α) (x : Option Nat) (s s1 : DoublyLinkedList α) (L : List α),
      DoublyLinkedList.toArrayLoop fuel vals x s = (Result.ok (Ret.array L), s1) →
      vals.length ≤ L.length ∧ (x ≠ none → vals.length < L.length) := by
  intro fuel
  induction fuel with
  | zero =>
    intro vals x s s1 L h
    simp [DoublyLinkedList.toArrayLoop, Exec.raise] at h
  | succ fuel ih =>
    intro vals x s s1 L h
    cases x with
    | none =>
      simp only [DoublyLinkedList.toArrayLoop, Exec.pure_run, Prod.mk.injEq, Result.ok.injEq,
        Ret.array.injEq] at h
      rw [← h.1]
      exact ⟨Nat.le_refl _, fun hne => absurd rfl hne⟩
    | some a =>
      simp only [DoublyLinkedList.toArrayLoop, Exec.bind_run, Exec.andThen, Exec.node] at h
      cases hn : s.store[a]? with
      | none => simp [hn] at h
      | some n =>
        simp only [hn] at h
        have := (ih _ _ _ _ _ h).1
        simp only [List.length_append, List.length_singleton] at this
        exact ⟨by omega, fun _ => by omega⟩

theorem toArray_state {α : Type} (fuel : Nat) (s : DoublyLinkedList α) :
    (DoublyLinkedList.toArray fuel s).2 = s := by
  simp only [DoublyLinkedList.toArray]
  rw [Exec.bind_ok (rfl : Exec.getHead s = (Result.ok s.head, s))]
  exact toArrayLoop_state fuel [] s.head s

/-- C11. In every state of the list `isEmpty()` returns a boolean, and that boolean is `true`
exactly when `toArray()` returns the empty array: with `head === null` the loop of `toArray`
is never entered, otherwise any array it returns holds at least the head's data.  On a
well-formed list, which every state reached by calls that return is, `toArray()` does return,
and `isEmpty()` is `true` exactly when the array returned is empty. -/
theorem isEmpty_iff_toArray_empty {α : Type} (s : DoublyLinkedList α) :
    ∃ b, DoublyLinkedList.isEmpty s = (Result.ok b, s) ∧
      (b = true ↔ ∃ fuel, (DoublyLinkedList.toArray fuel s).1 = Result.ok (Ret.array [])) ∧
      (b = true → ∀ fuel,
        DoublyLinkedList.toArray (fuel + 1) s = (Result.ok (Ret.array []), s)) ∧
      (WellFormed s → ∀ fuel, s.store.length < fuel →
        ∃ L, DoublyLinkedList.toArray fuel s = (Result.ok (Ret.array L), s) ∧
          (b = true ↔ L = [])) := by
  refine ⟨decide (s.head = none), isEmpty_run s, ?_, ?_, ?_⟩
  · constructor
    · intro hb
      have hh : s.head = none := of_decide_eq_true hb
      refine ⟨1, ?_⟩
      simp only [DoublyLinkedList.toArray]
      rw [Exec.bind_ok (rfl : Exec.getHead s = (Result.ok s.head, s)), hh]
      rfl
    · rintro ⟨fuel, hf⟩
      apply decide_eq_true
      by_contra hne
      have hrun : DoublyLinkedList.toArray fuel s
          = (Result.ok (Ret.array []), (DoublyLinkedList.toArray fuel s).2) := by
        rw [← hf]
      simp only [DoublyLinkedList.toArray] at hrun
      rw [Exec.bind_ok (rfl : Exec.getHead s = (Result.ok s.head, s))] at hrun
      have := (toArrayLoop_length _ _ _ _ _ _ hrun).2 hne
      simp at this
  · intro hb fuel
    have hh : s.head = none := of_decide_eq_true hb
    simp only [DoublyLinkedList.toArray]
    rw [Exec.bind_ok (rfl : Exec.getHead s = (Result.ok s.head, s)), hh]
    rfl
  · intro hwf fuel hf
    obtain ⟨as, L, h⟩ := hwf.linked
    refine ⟨L, toArray_linked h fuel (Nat.lt_of_le_of_lt h.length_le hf), ?_⟩
    rw [decide_eq_true_iff, h.head]
    constructor
    · intro he
      have has : as = [] := by
        cases as with
        | nil => rfl
        | cons a as => simp at he
      apply List.length_eq_zero.1
      rw [h.len, has]
      rfl
    · intro he
      have has : as = [] := by
        apply List.length_eq_zero.1
        rw [← h.len, he]
        rfl
      rw [has]
      rfl

/-- C12, at the failing input `[4, 5, 6]`: the body of `insertBefore` is empty, so
`insertBefore(5, 3)` yields `undefined` instead of `true` and splices nothing (`toArray` still
returns `[4, 5, 6]`, not `[4, 3, 5, 6]`), and `insertBefore(99, 3)` yields `undefined` instead
of `false`. -/
theorem insertBefore_does_nothing :
    WellFormed secondThreeList ∧
    (DoublyLinkedList.toArray 4 secondThreeList).1 = Result.ok (Ret.array [4, 5, 6]) ∧
    DoublyLinkedList.insertBefore 5 3 secondThreeList
      = (Result.ok Ret.undefined, secondThreeList) ∧
    (DoublyLinkedList.insertBefore 5 3 secondThreeList).1 ≠ Result.ok (Ret.bool true) ∧
    (DoublyLinkedList.toArray 5 (DoublyLinkedList.insertBefore 5 3 secondThreeList).2).1
      ≠ Result.ok (Ret.array [4, 3, 5, 6]) ∧
    (DoublyLinkedList.insertBefore 99 3 secondThreeList).1 ≠ Result.ok (Ret.bool false) := by
  refine ⟨by decide, by decide, by decide, by decide, by decide, by decide⟩

/-- C13. `toArray()` writes nothing: in every state the list it leaves is the list it was
called on (`head`, `tail` and every node as before).  On a well-formed list it returns, and a
second call right after returns the same array. -/
theorem toArray_snapshot {α : Type} (s : DoublyLinkedList α) (fuel : Nat)
    (hwf : WellFormed s) (hf : s.store.length < fuel) :
    (∀ f (t : DoublyLinkedList α), (DoublyLinkedList.toArray f t).2 = t) ∧
    ∃ L, DoublyLinkedList.toArray fuel s = (Result.ok (Ret.array L), s) ∧
      DoublyLinkedList.toArray fuel (DoublyLinkedList.toArray fuel s).2
        = (Result.ok (Ret.array L), s) := by
  obtain ⟨as, L, h⟩ := hwf.linked
  have hrun := toArray_linked h fuel (Nat.lt_of_le_of_lt h.length_le hf)
  refine ⟨fun f t => toArray_state f t, L, hrun, ?_⟩
  rw [hrun]
  exact hrun

theorem toArray_snapshot_witness :
    WellFormed secondThreeList ∧ secondThreeList.store.length < 4 ∧
    (∀ f (t : DoublyLinkedList Int), (DoublyLinkedList.toArray f t).2 = t) ∧
    ∃ L, DoublyLinkedList.toArray 4 secondThreeList = (Result.ok (Ret.array L), secondThreeList) ∧
      DoublyLinkedList.toArray 4 (DoublyLinkedList.toArray 4 secondThreeList).2
        = (Result.ok (Ret.array L), secondThreeList) :=
  ⟨by decide, by decide, toArray_snapshot secondThreeList 4 (by decide) (by decide)⟩

/-! ## The array queue -/

theorem Result.bind_ok_eq {β γ : Type} (v : β) (f : β → Result γ) :
    (Result.ok v >>= f) = f v := rfl

theorem Result.pure_eq {β : Type} (v : β) : (pure v : Result β) = Result.ok v := rfl

/-- The shifting loop of `dequeue`, started at the end of `pre`, moves every later item one
place to the left and keeps the length: the last item is there twice. -/
theorem dequeueLoop_shift {α : Type} :
    ∀ (ys pre : List (Val α)) (y : Val α) (fuel : Nat), ys.length < fuel →
      ∃ z, Queue.dequeueLoop fuel pre.length (pre ++ y :: ys) = Result.ok ((pre ++ ys) ++ [z]) := by
  intro ys
  induction ys with
  | nil =>
    intro pre y fuel hf
    obtain ⟨f, rfl⟩ : ∃ f, fuel = f + 1 := ⟨fuel - 1, by simp at hf; omega⟩
    refine ⟨y, ?_⟩
    simp only [Queue.dequeueLoop, List.length_append, List.length_cons, List.length_nil]
    rw [if_neg (by push_cast; omega)]
    simp
  | cons z zs ih =>
    intro pre y fuel hf
    obtain ⟨f, rfl⟩ : ∃ f, fuel = f + 1 := ⟨fuel - 1, by omega⟩
    simp only [List.length_cons] at hf
    obtain ⟨w, hw⟩ := ih (pre ++ [z]) z f (by omega)
    refine ⟨w, ?_⟩
    simp only [Queue.dequeueLoop, List.length_append, List.length_cons]
    rw [if_pos (by push_cast; omega)]
    have h1 : (pre ++ y :: z :: zs).getD (pre.length + 1) Val.undefined = z := by
      rw [List.getD_eq_getElem?_getD, List.getElem?_append_right (by omega)]
      simp
    have h2 : (pre ++ y :: z :: zs).set pre.length z = (pre ++ [z]) ++ z :: zs := by
      simp [List.set_append_right]
    rw [h1, h2]
    have h3 : pre.length + 1 = (pre ++ [z]).length := by simp
    rw [h3, hw]
    simp

theorem Queue.dequeue_cons {α : Type} (x : Val α) (rest : List (Val α)) :
    Queue.dequeue { items := x :: rest } = Result.ok (x, { items := rest }) := by
  obtain ⟨z, hz⟩ := dequeueLoop_shift rest [] x (rest.length + 1 + 1) (by omega)
  simp only [List.length_nil, List.nil_append] at hz
  simp only [Queue.dequeue, List.length_cons]
  rw [if_neg (by omega), hz]
  simp [Result.bind_ok_eq, Result.pure_eq]

theorem Queue.dequeue_nil {α : Type} :
    Queue.dequeue ({ items := [] } : Queue α) = Result.ok (Val.undefined, { items := [] }) := rfl

/-- C14. `dequeue()` on a queue with items `x :: rest` returns `x` and leaves `rest`; on the
empty queue it returns `undefined` and leaves the queue empty.  The shifting loop followed by
`pop` does what `items.shift()` does. -/
theorem dequeue_is_shift {α : Type} (q : Queue α) :
    Queue.dequeue q = Result.ok (Queue.dequeueShift q) ∧
    (∀ x rest, q.items = x :: rest → Queue.dequeue q = Result.ok (x, { items := rest })) ∧
    (q.items = [] → Queue.dequeue q = Result.ok (Val.undefined, { items := [] })) := by
  obtain ⟨items⟩ := q
  refine ⟨?_, ?_, ?_⟩
  · cases items with
    | nil => rfl
    | cons x rest => exact Queue.dequeue_cons x rest
  · intro x rest h
    simp only at h
    subst h
    exact Queue.dequeue_cons x rest
  · intro h
    simp only at h
    subst h
    rfl

theorem Queue.enqueue_snd {α : Type} (v : Val α) (items : List (Val α)) :
    (Queue.enqueue v { items := items }).2 = { items := items ++ [v] } := rfl

/-- The loop of `compareQueues` over the items still to be visited: each step moves the front
item of either queue to its back, and the flag stays `true` only while the fronts agree. -/
theorem compareLoop_run {α : Type} [DecidableEq α] :
    ∀ (xs ys done1 done2 : List (Val α)) (fuel count len : Nat) (flag : Bool),
      xs.length = ys.length → count + xs.length = len → xs.length < fuel →
      Queue.compareLoop fuel count len flag { items := xs ++ done1 } { items := ys ++ done2 }
        = Result.ok (flag && decide (xs = ys), { items := done1 ++ xs },
            { items := done2 ++ ys }) := by
  intro xs
  induction xs with
  | nil =>
    intro ys done1 done2 fuel count len flag hl hc hf
    have hys : ys = [] := List.length_eq_zero.1 hl.symm
    subst hys
    obtain ⟨f, rfl⟩ : ∃ f, fuel = f + 1 := ⟨fuel - 1, by simp at hf; omega⟩
    simp only [List.length_nil, Nat.add_zero] at hc
    simp only [Queue.compareLoop]
    rw [if_neg (by omega)]
    simp [Result.pure_eq]
  | cons x xs ih =>
    intro ys done1 done2 fuel count len flag hl hc hf
    cases ys with
    | nil => simp at hl
    | cons y ys =>
      obtain ⟨f, rfl⟩ : ∃ f, fuel = f + 1 := ⟨fuel - 1, by omega⟩
      simp only [List.length_cons] at hl hc hf
      simp only [Queue.compareLoop, List.cons_append]
      rw [if_pos (by omega), Queue.dequeue_cons, Queue.dequeue_cons]
      simp only [Result.bind_ok_eq, Queue.enqueue_snd, List.append_assoc]
      rw [ih ys (done1 ++ [x]) (done2 ++ [y]) f (count + 1) len _ (by omega) (by omega)
        (by omega)]
      by_cases hxy : x = y
      · subst hxy
        simp
      · simp [hxy]

theorem Queue.compareQueues_eq {α : Type} [DecidableEq α] (q1 q2 : Queue α) :
    Queue.compareQueues q1 q2 = Result.ok (decide (q1.items = q2.items), q1, q2) := by
  obtain ⟨xs⟩ := q1
  obtain ⟨ys⟩ := q2
  simp only [Queue.compareQueues, Queue.size]
  by_cases hl : xs.length = ys.length
  · rw [if_neg (fun h => h hl)]
    have := compareLoop_run xs ys [] [] (xs.length + 1) 0 xs.length true hl (by omega) (by omega)
    simp only [List.append_nil, List.nil_append, Bool.true_and] at this
    exact this
  · rw [if_pos hl]
    have hne : xs ≠ ys := fun h => hl (by rw [h])
    simp [Result.pure_eq, hne]

/-- C15. `q1.compareQueues(q2)` on two distinct queues returns a boolean that is `true` exactly
when the queues have the same size and the same item at every position, and leaves both queues
with their items in their original order. -/
theorem compareQueues_spec {α : Type} [DecidableEq α] (q1 q2 : Queue α) :
    ∃ b, Queue.compareQueues q1 q2 = Result.ok (b, q1, q2) ∧
      (b = true ↔ q1.size = q2.size ∧ ∀ i : Nat, q1.items[i]? = q2.items[i]?) := by
  refine ⟨decide (q1.items = q2.items), Queue.compareQueues_eq q1 q2, ?_⟩
  rw [decide_eq_true_iff]
  constructor
  · intro h
    simp [Queue.size, h]
  · rintro ⟨_, h⟩
    exact List.ext_getElem? h

/-- The first loop of `isPalindrome` over the items still to be visited: each goes on top of
the stack and to the back of the queue. -/
theorem palindromeFill_run {α : Type} :
    ∀ (xs done st : List (Val α)) (fuel i len : Nat),
      i + xs.length = len → xs.length < fuel →
      Queue.palindromeFill fuel i len { items := st } { items := xs ++ done }
        = Result.ok ({ items := st ++ xs }, { items := done ++ xs }) := by
  intro xs
  induction xs with
  | nil =>
    intro done st fuel i len hc hf
    obtain ⟨f, rfl⟩ : ∃ f, fuel = f + 1 := ⟨fuel - 1, by simp at hf; omega⟩
    simp only [List.length_nil, Nat.add_zero] at hc
    simp only [Queue.palindromeFill]
    rw [if_neg (by omega)]
    simp [Result.pure_eq]
  | cons x xs ih =>
    intro done st fuel i len hc hf
    obtain ⟨f, rfl⟩ : ∃ f, fuel = f + 1 := ⟨fuel - 1, by omega⟩
    simp only [List.length_cons] at hc hf
    simp only [Queue.palindromeFill, List.cons_append]
    rw [if_pos (by omega), Queue.dequeue_cons]
    simp only [Result.bind_ok_eq, Queue.enqueue_snd, Stack.push, List.append_assoc]
    rw [ih (done ++ [x]) (st ++ [x]) f (i + 1) len (by omega) (by omega)]
    simp

/-- The second loop of `isPalindrome`: with `rs` read off the stack from the top, the flag
stays `true` only while the queue's items, front first, agree with `rs`. -/
theorem palindromeCheck_run {α : Type} [DecidableEq α] :
    ∀ (xs rs done : List (Val α)) (fuel i len : Nat) (flag : Bool),
      xs.length = rs.length → i + xs.length = len → xs.length < fuel →
      Queue.palindromeCheck fuel i len flag { items := rs.reverse } { items := xs ++ done }
        = Result.ok (flag && decide (xs = rs), { items := done ++ xs }) := by
  intro xs
  induction xs with
  | nil =>
    intro rs done fuel i len flag hl hc hf
    have hrs : rs = [] := List.length_eq_zero.1 hl.symm
    subst hrs
    obtain ⟨f, rfl⟩ : ∃ f, fuel = f + 1 := ⟨fuel - 1, by simp at hf; omega⟩
    simp only [List.length_nil, Nat.add_zero] at hc
    simp only [Queue.palindromeCheck]
    rw [if_neg (by omega)]
    simp [Result.pure_eq]
  | cons x xs ih =>
    intro rs done fuel i len flag hl hc hf
    cases rs with
    | nil => simp at hl
    | cons r rs =>
      obtain ⟨f, rfl⟩ : ∃ f, fuel = f + 1 := ⟨fuel - 1, by omega⟩
      simp only [List.length_cons] at hl hc hf
      have hpop : Stack.pop ({ items := (r :: rs).reverse } : Stack α)
          = (r, { items := rs.reverse }) := by
        simp [Stack.pop]
      simp only [Queue.palindromeCheck, List.cons_append]
      rw [if_pos (by omega), Queue.dequeue_cons]
      simp only [Result.bind_ok_eq, Queue.enqueue_snd, hpop, List.append_assoc]
      rw [ih rs (done ++ [x]) f (i + 1) len _ (by omega) (by omega) (by omega)]
      by_cases hxr : r = x
      · subst hxr
        simp
      · have hxr2 : ¬ x = r := fun e => hxr e.symm
        simp [hxr, hxr2]

theorem Queue.isPalindrome_eq {α : Type} [DecidableEq α] (q : Queue α) :
    Queue.isPalindrome q = Result.ok (decide (q.items = q.items.reverse), q) := by
  obtain ⟨L⟩ := q
  have h1 := palindromeFill_run L [] [] (L.length + 1) 0 L.length (by omega) (by omega)
  have h2 := palindromeCheck_run L L.reverse [] (L.length + 1) 0 L.length true (by simp)
    (by omega) (by omega)
  simp only [List.append_nil, List.nil_append, List.reverse_reverse, Bool.true_and] at h1 h2
  simp only [Queue.isPalindrome, Queue.size, Stack.new]
  rw [h1]
  simp only [Result.bind_ok_eq]
  exact h2

/-- C16. `isPalindrome()` on a queue with items `L` returns `true` exactly when `L` equals its
own reverse, and leaves the queue with the items `L` in their original order. -/
theorem isPalindrome_spec {α : Type} [DecidableEq α] (q : Queue α) :
    ∃ b, Queue.isPalindrome q = Result.ok (b, q) ∧ (b = true ↔ q.items = q.items.reverse) :=
  ⟨decide (q.items = q.items.reverse), Queue.isPalindrome_eq q, decide_eq_true_iff⟩

/-- A summing loop of `isSumOfHalvesEqual` over the integers `xs` at the front: they are added,
one by one and each sum rounded, to the running total and moved to the back of the queue. -/
theorem sumLoop_run :
    ∀ (xs : List Int) (rest : List (Val Int)) (fuel i bound : Nat) (acc : JSNumber),
      i + xs.length = bound → xs.length < fuel →
      Queue.sumLoop fuel i bound acc { items := xs.map Val.of ++ rest }
        = Result.ok (xs.foldl (fun a x => a.add (Val.of x)) acc,
            { items := rest ++ xs.map Val.of }) := by
  intro xs
  induction xs with
  | nil =>
    intro rest fuel i bound acc hc hf
    obtain ⟨f, rfl⟩ : ∃ f, fuel = f + 1 := ⟨fuel - 1, by simp at hf; omega⟩
    simp only [List.length_nil, Nat.add_zero] at hc
    simp only [Queue.sumLoop]
    rw [if_neg (by omega)]
    simp [Result.pure_eq]
  | cons x xs ih =>
    intro rest fuel i bound acc hc hf
    obtain ⟨f, rfl⟩ : ∃ f, fuel = f + 1 := ⟨fuel - 1, by omega⟩
    simp only [List.length_cons] at hc hf
    simp only [Queue.sumLoop, List.map_cons, List.cons_append]
    rw [if_pos (by omega), Queue.dequeue_cons]
    simp only [Result.bind_ok_eq, Queue.enqueue_snd, List.append_assoc]
    rw [ih (rest ++ [Val.of x]) f (i + 1) bound _ (by omega) (by omega)]
    simp

/-- An integer of size at most `2 ^ 53` is a double: rounding leaves it as it is. -/
theorem roundDouble_exact (x : Int) (hx : x.natAbs ≤ 2 ^ 53) :
    JSNumber.roundDouble x = JSNumber.int x := by
  rcases Nat.lt_or_ge x.natAbs (2 ^ 53) with hlt | hge
  · simp only [JSNumber.roundDouble]
    rw [if_pos hlt]
  · have he : x.natAbs = 2 ^ 53 := Nat.le_antisymm hx hge
    rcases Int.natAbs_eq x with h | h
    · rw [he] at h
      rw [h]
      decide
    · rw [he] at h
      rw [h]
      decide

/-- While every running total stays within `2 ^ 53` in size no addition rounds, and the total
is the exact sum. -/
theorem runningTotal_exact :
    ∀ (xs : List Int) (a : Int),
      (∀ k, k ≤ xs.length → (a + (xs.take k).sum).natAbs ≤ 2 ^ 53) →
      xs.foldl (fun acc x => acc.add (Val.of x)) (JSNumber.int a) = JSNumber.int (a + xs.sum) := by
  intro xs
  induction xs with
  | nil => intro a _; simp
  | cons x xs ih =>
    intro a h
    have h1 := h 1 (by simp)
    simp only [List.take_succ_cons, List.take_zero, List.sum_cons, List.sum_nil,
      Int.add_zero] at h1
    have hadd : (JSNumber.int a).add (Val.of x) = JSNumber.int (a + x) := by
      simp only [JSNumber.add]
      exact roundDouble_exact _ h1
    simp only [List.foldl_cons]
    rw [hadd, ih (a + x) ?_]
    · simp [List.sum_cons, Int.add_assoc]
    · intro k hk
      have := h (k + 1) (by simp; omega)
      simpa [List.take_succ_cons, List.sum_cons, Int.add_assoc] using this

/-- What `isSumOfHalvesEqual()` computes on a queue of integers `L` of length at least two: it
compares the rounded running total of the first `n / 2` items with that of the last `n / 2`
items, and leaves the queue as it was. -/
theorem Queue.isSumOfHalvesEqual_eq (L : List Int) (hn : 2 ≤ L.length) :
    Queue.isSumOfHalvesEqual { items := L.map Val.of }
      = Result.ok (JSNumber.strictEq
            ((L.take (L.length / 2)).foldl (fun a x => a.add (Val.of x)) (JSNumber.int 0))
            ((L.drop (L.length - L.length / 2)).foldl (fun a x => a.add (Val.of x))
              (JSNumber.int 0)),
          { items := L.map Val.of }) := by
  have hsplit : L.map Val.of
      = (L.take (L.length / 2)).map Val.of ++ (L.drop (L.length / 2)).map Val.of := by
    rw [← List.map_append, List.take_append_drop]
  have htl : (L.take (L.length / 2)).length = L.length / 2 := by
    rw [List.length_take]; omega
  have h1 := sumLoop_run (L.take (L.length / 2)) ((L.drop (L.length / 2)).map Val.of)
    (L.length / 2 + 1) 0 (L.length / 2) (JSNumber.int 0) (by omega) (by omega)
  rw [← hsplit] at h1
  simp only [Queue.isSumOfHalvesEqual, Queue.size, List.length_map]
  rw [if_neg (by omega), h1]
  simp only [Result.bind_ok_eq]
  by_cases hodd : L.length % 2 ≠ 0
  · rw [if_pos hodd]
    have hk : L.length / 2 < L.length := by omega
    obtain ⟨m, hm⟩ : ∃ m, L.drop (L.length / 2) = m :: L.drop (L.length / 2 + 1) :=
      ⟨_, List.drop_eq_getElem_cons hk⟩
    rw [hm, List.map_cons, List.cons_append, Queue.dequeue_cons]
    simp only [Result.bind_ok_eq, Result.pure_eq, Queue.enqueue_snd, List.append_assoc]
    have h2 := sumLoop_run (L.drop (L.length / 2 + 1))
      ((L.take (L.length / 2)).map Val.of ++ [Val.of m])
      (L.length / 2 + 1) 0 (L.length / 2) (JSNumber.int 0) (by rw [List.length_drop]; omega)
      (by rw [List.length_drop]; omega)
    rw [h2]
    have e1 : L.length - L.length / 2 = L.length / 2 + 1 := by omega
    have e2 : (L.take (L.length / 2)).map Val.of ++ [Val.of m]
        ++ (L.drop (L.length / 2 + 1)).map Val.of = L.map Val.of := by
      rw [List.append_assoc, List.singleton_append, ← List.map_cons, ← hm, ← hsplit]
    rw [e1, e2]
    simp only [Result.bind_ok_eq]
    simp
  · rw [if_neg hodd]
    simp only [Result.bind_ok_eq, Result.pure_eq]
    have h2 := sumLoop_run (L.drop (L.length / 2)) ((L.take (L.length / 2)).map Val.of)
      (L.length / 2 + 1) 0 (L.length / 2) (JSNumber.int 0) (by rw [List.length_drop]; omega)
      (by rw [List.length_drop]; omega)
    rw [h2]
    have e1 : L.length - L.length / 2 = L.length / 2 := by omega
    rw [e1, ← hsplit]
    simp only [Result.bind_ok_eq]
    simp

/-- C17, as stated, fails on the queue `2 ^ 53, 1, 2 ^ 53, 0`: the first half sums to
`2 ^ 53 + 1`, the second to `2 ^ 53`, yet `isSumOfHalvesEqual()` returns `true`, because the
addition `2 ^ 53 + 1` rounds to `2 ^ 53`. -/
theorem isSumOfHalvesEqual_rounds :
    2 ≤ ([2 ^ 53, 1, 2 ^ 53, 0] : List Int).length ∧
    Queue.isSumOfHalvesEqual { items := ([2 ^ 53, 1, 2 ^ 53, 0] : List Int).map Val.of }
      = Result.ok (true, { items := ([2 ^ 53, 1, 2 ^ 53, 0] : List Int).map Val.of }) ∧
    (([2 ^ 53, 1, 2 ^ 53, 0] : List Int).take 2).sum
      ≠ (([2 ^ 53, 1, 2 ^ 53, 0] : List Int).drop 2).sum ∧
    ¬ (∃ b, Queue.isSumOfHalvesEqual { items := ([2 ^ 53, 1, 2 ^ 53, 0] : List Int).map Val.of }
          = Result.ok (b, { items := ([2 ^ 53, 1, 2 ^ 53, 0] : List Int).map Val.of }) ∧
        (b = true ↔ (([2 ^ 53, 1, 2 ^ 53, 0] : List Int).take 2).sum
          = (([2 ^ 53, 1, 2 ^ 53, 0] : List Int).drop 2).sum)) := by
  have hrun : Queue.isSumOfHalvesEqual
      { items := ([2 ^ 53, 1, 2 ^ 53, 0] : List Int).map Val.of }
      = Result.ok (true, { items := ([2 ^ 53, 1, 2 ^ 53, 0] : List Int).map Val.of }) := by
    decide
  have hne : (([2 ^ 53, 1, 2 ^ 53, 0] : List Int).take 2).sum
      ≠ (([2 ^ 53, 1, 2 ^ 53, 0] : List Int).drop 2).sum := by decide
  refine ⟨by decide, hrun, hne, ?_⟩
  rintro ⟨b, hb, hiff⟩
  rw [hrun] at hb
  have hbt : b = true := by
    have := congrArg (fun r => match r with
      | Result.ok p => p.1
      | Result.fault _ => false) hb
    exact this.symm
  exact hne (hiff.1 hbt)

/-- C17, amended. On a queue of integers with items `L` of length `n ≥ 2`,
`isSumOfHalvesEqual()` leaves the queue with the items `L` in their original order; and when
every running total of the first `n / 2` items and of the last `n / 2` items is at most
`2 ^ 53` in size, so that no addition rounds, it returns `true` exactly when the sum of the
first `n / 2` items equals the sum of the last `n / 2` items. -/
theorem isSumOfHalvesEqual_exact (L : List Int) (hn : 2 ≤ L.length) :
    ∃ b, Queue.isSumOfHalvesEqual { items := L.map Val.of }
        = Result.ok (b, { items := L.map Val.of }) ∧
      ((∀ k, k ≤ L.length / 2 →
          (((L.take (L.length / 2)).take k).sum).natAbs ≤ 2 ^ 53 ∧
          (((L.drop (L.length - L.length / 2)).take k).sum).natAbs ≤ 2 ^ 53) →
        (b = true ↔
          (L.take (L.length / 2)).sum = (L.drop (L.length - L.length / 2)).sum)) := by
  refine ⟨_, Queue.isSumOfHalvesEqual_eq L hn, ?_⟩
  intro hb
  have hA := runningTotal_exact (L.take (L.length / 2)) 0 (by
    intro k hk
    rw [Int.zero_add]
    rcases Nat.lt_or_ge (L.length / 2) k with hlt | hge
    · have := (hb (L.length / 2) (Nat.le_refl _)).1
      rw [List.take_take, Nat.min_self] at this
      rw [List.take_of_length_le (by rw [List.length_take]; omega)]
      exact this
    · exact (hb k hge).1)
  have hB := runningTotal_exact (L.drop (L.length - L.length / 2)) 0 (by
    intro k hk
    rw [Int.zero_add]
    rcases Nat.lt_or_ge (L.length / 2) k with hlt | hge
    · have := (hb (L.length / 2) (Nat.le_refl _)).2
      rw [List.take_of_length_le (by rw [List.length_drop]; omega)] at this
      rw [List.take_of_length_le (by rw [List.length_drop]; omega)]
      exact this
    · exact (hb k hge).2)
  rw [Int.zero_add] at hA hB
  rw [hA, hB]
  simp [JSNumber.strictEq]

theorem isSumOfHalvesEqual_exact_witness :
    2 ≤ ([1, 2, 3, 3, 2] : List Int).length ∧
    Queue.isSumOfHalvesEqual { items := ([1, 2, 3, 3, 2] : List Int).map Val.of }
      = Result.ok (false, { items := ([1, 2, 3, 3, 2] : List Int).map Val.of }) ∧
    (∀ k, k ≤ ([1, 2, 3, 3, 2] : List Int).length / 2 →
      (((([1, 2, 3, 3, 2] : List Int).take (([1, 2, 3, 3, 2] : List Int).length / 2)).take
        k).sum).natAbs ≤ 2 ^ 53 ∧
      (((([1, 2, 3, 3, 2] : List Int).drop (([1, 2, 3, 3, 2] : List Int).length
        - ([1, 2, 3, 3, 2] : List Int).length / 2)).take k).sum).natAbs ≤ 2 ^ 53) ∧
    ∃ b, Queue.isSumOfHalvesEqual { items := ([1, 2, 3, 3, 2] : List Int).map Val.of }
        = Result.ok (b, { items := ([1, 2, 3, 3, 2] : List Int).map Val.of }) ∧
      (b = true ↔ (([1, 2, 3, 3, 2] : List Int).take (([1, 2, 3, 3, 2] : List Int).length / 2)).sum
        = (([1, 2, 3, 3, 2] : List Int).drop (([1, 2, 3, 3, 2] : List Int).length
            - ([1, 2, 3, 3, 2] : List Int).length / 2)).sum) :=
  ⟨by decide, by decide, by decide,
    (isSumOfHalvesEqual_exact [1, 2, 3, 3, 2] (by decide)).elim
      (fun b h => ⟨b, h.1, h.2 (by decide)⟩)⟩

/-! ## The linked queue against the array queue -/

namespace QueueLinked

variable {α : Type} {q : LinkedListQueue α} {as : List Nat} {items : List (Val α)}

theorem cell_value (h : QueueLinked q as items) {i a : Nat} (hi : as[i]? = some a) :
    ∃ v, items[i]? = some v := by
  have hlt : i < as.length := (List.getElem?_eq_some_iff.1 hi).1
  have : i < items.length := by rw [h.len]; exact hlt
  exact ⟨items[i], List.getElem?_eq_getElem this⟩

theorem ref_bound (h : QueueLinked q as items) {i a : Nat} (hi : as[i]? = some a) :
    a < q.store.length := by
  obtain ⟨v, hv⟩ := h.cell_value hi
  exact (List.getElem?_eq_some_iff.1 (h.cell i a v hi hv)).1

theorem ref_inj (h : QueueLinked q as items) {i j a : Nat} (hi : as[i]? = some a)
    (hj : as[j]? = some a) : i = j := by
  obtain ⟨hi1, hi2⟩ := List.getElem?_eq_some_iff.1 hi
  obtain ⟨hj1, hj2⟩ := List.getElem?_eq_some_iff.1 hj
  exact (List.Nodup.getElem_inj_iff h.nodup).1 (hi2.trans hj2.symm)

end QueueLinked

theorem queueLinked_new {α : Type} :
    QueueLinked (LinkedListQueue.new : LinkedListQueue α) [] [] :=
  ⟨List.nodup_nil, rfl, rfl, rfl, rfl, by intro i a v hi; simp at hi⟩

theorem LinkedListQueue.enqueue_linked {α : Type} {q : LinkedListQueue α} {as : List Nat}
    {items : List (Val α)} (h : QueueLinked q as items) (v : Val α) :
    ∃ q1, q.enqueue v = (Result.ok ((items.length : Int) + 1), q1) ∧
      QueueLinked q1 (as ++ [q.store.length]) (items ++ [v]) := by
  rcases Nat.eq_zero_or_pos as.length with h0 | hpos
  · have has : as = [] := List.length_eq_zero.1 h0
    have hL : items = [] := List.length_eq_zero.1 (by rw [h.len, h0])
    have ht : q.top = none := by rw [h.top, has]; rfl
    have hs : q.size = 0 := by rw [h.size, hL]; rfl
    subst has hL
    refine ⟨{ store := q.store ++ [QueueNode.mk v none], top := some q.store.length,
              tail := some q.store.length, size := q.size + 1 }, ?_, ?_⟩
    · simp [LinkedListQueue.enqueue, LinkedListQueue.isEmpty, ht, hs]
    · refine ⟨by simp, by simp, by simp, by simp, by simp [hs], ?_⟩
      intro i a w hi hw
      cases i with
      | zero =>
        simp at hi hw
        subst hi hw
        simp
      | succ i => simp at hi
  · obtain ⟨k, hk⟩ : ∃ k, as.length = k + 1 := ⟨as.length - 1, by omega⟩
    obtain ⟨t, hat⟩ : ∃ t, as[k]? = some t := ⟨_, List.getElem?_eq_getElem (by omega)⟩
    obtain ⟨hd, hhd0⟩ : ∃ t, as[0]? = some t := ⟨_, List.getElem?_eq_getElem (by omega)⟩
    obtain ⟨vt, hvt⟩ := h.cell_value hat
    have hct := h.cell k _ vt hat hvt
    have hnone : as[k + 1]? = none := List.getElem?_eq_none (by omega)
    rw [hnone] at hct
    have htl : q.tail = some t := by
      rw [h.tail, List.getLast?_eq_getElem?, hk]; simpa using hat
    have hhd : q.top = some hd := by
      rw [h.top, List.head?_eq_getElem?]; exact hhd0
    have hb : t < q.store.length := h.ref_bound hat
    refine ⟨{ store := (q.store ++ [QueueNode.mk v none]).set t
                (QueueNode.mk vt (some q.store.length)),
              top := q.top, tail := some q.store.length, size := q.size + 1 }, ?_, ?_⟩
    · simp [LinkedListQueue.enqueue, LinkedListQueue.isEmpty, hhd, htl,
        List.getElem?_append_left hb, hct, h.size]
    · have hlook : ∀ a, a < q.store.length →
          ((q.store ++ [QueueNode.mk v none]).set t (QueueNode.mk vt (some q.store.length)))[a]?
          = if a = t then some (QueueNode.mk vt (some q.store.length)) else q.store[a]? := by
        intro a ha
        rw [List.getElem?_set, List.getElem?_append_left ha]
        by_cases hta : t = a
        · subst hta
          simp [hb]
          omega
        · have : ¬ a = t := fun e => hta e.symm
          simp [hta, this]
      refine ⟨?_, ?_, ?_, ?_, ?_, ?_⟩
      · rw [List.nodup_append]
        refine ⟨h.nodup, by simp, ?_⟩
        intro a ha
        obtain ⟨i, hi, rfl⟩ := List.getElem_of_mem ha
        have := h.ref_bound (List.getElem?_eq_getElem hi)
        simp; omega
      · simp [h.len]
      · show q.top = (as ++ [q.store.length]).head?
        rw [hhd, List.head?_eq_getElem?, List.getElem?_append_left hpos, hhd0]
      · simp
      · show q.size + 1 = _
        rw [h.size]
        simp
      · intro i a w hi hw
        rcases Nat.lt_or_ge i as.length with hlt | hge
        · rw [List.getElem?_append_left hlt] at hi
          rw [List.getElem?_append_left (by rw [h.len]; exact hlt)] at hw
          have hc := h.cell i a w hi hw
          show (_ : List (QueueNode α))[a]? = _
          rw [hlook a (h.ref_bound hi)]
          by_cases hat2 : a = t
          · subst hat2
            have hik : i = k := h.ref_inj hi hat
            subst hik
            rw [hvt] at hw
            cases hw
            simp [List.getElem?_append, hk]
          · simp only [hat2, if_false, hc]
            have : i + 1 < as.length := by
              rcases Nat.lt_or_ge (i + 1) as.length with h1 | h1
              · exact h1
              · exfalso
                have hik : i = k := by omega
                subst hik
                rw [hat] at hi
                exact hat2 (Option.some.inj hi).symm
            rw [List.getElem?_append_left this]
        · have hie : i = as.length := by
            rcases Nat.lt_or_ge as.length i with h1 | h1
            · rw [List.getElem?_eq_none (by simp; omega)] at hi
              cases hi
            · omega
          subst hie
          simp at hi
          have hw2 : w = v := by
            rw [← h.len] at hw
            simpa using hw.symm
          subst hi hw2
          have hne : t ≠ q.store.length := by omega
          show (_ : List (QueueNode α))[q.store.length]? = _
          simp [List.getElem?_set, hne]

theorem LinkedListQueue.empty_run {α : Type} {q : LinkedListQueue α} {as : List Nat}
    (h : QueueLinked q as ([] : List (Val α))) :
    q.isEmpty = true ∧ q.dequeue = (Result.ok Val.undefined, q) ∧
      q.front = (Result.ok Val.undefined, q) := by
  have has : as = [] := List.length_eq_zero.1 h.len.symm
  have ht : q.top = none := by rw [h.top, has]; rfl
  simp [LinkedListQueue.isEmpty, LinkedListQueue.dequeue, LinkedListQueue.front, ht]

theorem LinkedListQueue.dequeue_linked {α : Type} {q : LinkedListQueue α} {a : Nat}
    {as : List Nat} {x : Val α} {rest : List (Val α)} (h : QueueLinked q (a :: as) (x :: rest)) :
    q.isEmpty = false ∧ q.front = (Result.ok x, q) ∧
    ∃ q1, q.dequeue = (Result.ok x, q1) ∧ QueueLinked q1 as rest := by
  have ht : q.top = some a := h.top
  have hc : q.store[a]? = some (QueueNode.mk x as[0]?) := by
    have := h.cell 0 a x (by simp) (by simp)
    simpa using this
  have hlen : rest.length = as.length := by
    have := h.len
    simpa using this
  have hsz : q.size = (rest.length : Int) + 1 := by
    rw [h.size]
    simp
  have hnd := List.nodup_cons.1 h.nodup
  have hcell : ∀ i b w, as[i]? = some b → rest[i]? = some w →
      q.store[b]? = some (QueueNode.mk w as[i + 1]?) := by
    intro i b w hi hw
    have := h.cell (i + 1) b w (by simpa using hi) (by simpa using hw)
    simpa using this
  refine ⟨by simp [LinkedListQueue.isEmpty, ht],
    by simp [LinkedListQueue.front, LinkedListQueue.isEmpty, ht, hc], ?_⟩
  rcases Nat.eq_zero_or_pos rest.length with h0 | hpos
  · have hrest : rest = [] := List.length_eq_zero.1 h0
    have has : as = [] := List.length_eq_zero.1 (by rw [← hlen, h0])
    subst hrest has
    refine ⟨{ store := q.store, top := none, tail := none, size := q.size - 1 }, ?_, ?_⟩
    · simp [LinkedListQueue.dequeue, LinkedListQueue.isEmpty, ht, hc, hsz]
    · exact ⟨List.nodup_nil, rfl, rfl, rfl, by simp [hsz], by intro i b w hi; simp at hi⟩
  · refine ⟨{ store := q.store, top := as[0]?, tail := q.tail, size := q.size - 1 }, ?_, ?_⟩
    · have hne : ¬ (q.size - 1 = 0) := by rw [hsz]; omega
      simp [LinkedListQueue.dequeue, LinkedListQueue.isEmpty, ht, hc, hne]
    · refine ⟨hnd.2, hlen, ?_, ?_, ?_, hcell⟩
      · show as[0]? = as.head?
        rw [List.head?_eq_getElem?]
      · show q.tail = as.getLast?
        rw [h.tail, List.getLast?_eq_getElem?, List.getLast?_eq_getElem?]
        obtain ⟨k, hk⟩ : ∃ k, as.length = k + 1 := ⟨as.length - 1, by omega⟩
        simp [hk]
      · show q.size - 1 = _
        rw [hsz]
        simp

/-- One call keeps the two queues in step: same returned value, and the linked queue again
represents the items of the array queue. -/
theorem call_simulation {α : Type} {lq : LinkedListQueue α} {q : Queue α} {as : List Nat}
    (h : QueueLinked lq as q.items) (c : QueueCall α) :
    (LinkedListQueue.call c lq).1 = (Queue.call c q).1 ∧
    (∃ r, (Queue.call c q).1 = Result.ok r) ∧
    ∃ as1, QueueLinked (LinkedListQueue.call c lq).2 as1 (Queue.call c q).2.items := by
  obtain ⟨items⟩ := q
  simp only at h
  cases c with
  | enqueue v =>
    obtain ⟨q1, hrun, hl1⟩ := LinkedListQueue.enqueue_linked h v
    simp only [LinkedListQueue.call, hrun, Queue.call, Queue.enqueue]
    refine ⟨by simp, ⟨_, rfl⟩, _, hl1⟩
  | dequeue =>
    cases items with
    | nil =>
      obtain ⟨_, hd, _⟩ := LinkedListQueue.empty_run h
      simp only [LinkedListQueue.call, hd, Queue.call, Queue.dequeue_nil]
      exact ⟨trivial, ⟨_, rfl⟩, as, h⟩
    | cons x rest =>
      cases as with
      | nil =>
        have := h.len
        simp at this
      | cons a as =>
        obtain ⟨_, _, q1, hd, hl1⟩ := LinkedListQueue.dequeue_linked h
        simp only [LinkedListQueue.call, hd, Queue.call, Queue.dequeue_cons]
        exact ⟨trivial, ⟨_, rfl⟩, as, hl1⟩
  | front =>
    cases items with
    | nil =>
      obtain ⟨_, _, hf⟩ := LinkedListQueue.empty_run h
      simp only [LinkedListQueue.call, hf, Queue.call]
      exact ⟨rfl, ⟨_, rfl⟩, as, h⟩
    | cons x rest =>
      cases as with
      | nil =>
        have := h.len
        simp at this
      | cons a as =>
        obtain ⟨_, hf, _⟩ := LinkedListQueue.dequeue_linked h
        simp only [LinkedListQueue.call, hf, Queue.call]
        exact ⟨by simp [Queue.front], ⟨_, rfl⟩, _, h⟩
  | isEmpty =>
    cases items with
    | nil =>
      obtain ⟨he, _, _⟩ := LinkedListQueue.empty_run h
      simp only [LinkedListQueue.call, he, Queue.call]
      exact ⟨rfl, ⟨_, rfl⟩, as, h⟩
    | cons x rest =>
      cases as with
      | nil =>
        have := h.len
        simp at this
      | cons a as =>
        obtain ⟨he, _, _⟩ := LinkedListQueue.dequeue_linked h
        simp only [LinkedListQueue.call, he, Queue.call]
        exact ⟨by simp [Queue.isEmpty], ⟨_, rfl⟩, _, h⟩

theorem runCalls_simulation {α : Type} (calls : List (QueueCall α)) :
    ∀ (lq : LinkedListQueue α) (q : Queue α) (as : List Nat), QueueLinked lq as q.items →
      (runCalls LinkedListQueue.call calls lq).1 = (runCalls Queue.call calls q).1 ∧
      (∀ r ∈ (runCalls Queue.call calls q).1, ∃ v, r = Result.ok v) ∧
      ∃ as1, QueueLinked (runCalls LinkedListQueue.call calls lq).2 as1
        (runCalls Queue.call calls q).2.items := by
  induction calls with
  | nil =>
    intro lq q as h
    exact ⟨rfl, by simp [runCalls], as, h⟩
  | cons c cs ih =>
    intro lq q as h
    obtain ⟨h1, ⟨v, hv⟩, as1, h2⟩ := call_simulation h c
    obtain ⟨h3, h4, as2, h5⟩ := ih _ _ as1 h2
    refine ⟨?_, ?_, as2, h5⟩
    · simp only [runCalls, h1, h3]
    · intro r hr
      simp only [runCalls, List.mem_cons] at hr
      rcases hr with hr | hr
      · exact ⟨v, hr.trans hv⟩
      · exact h4 r hr

/-- C18. For every sequence of `enqueue`, `dequeue`, `front` and `isEmpty` calls, a new
`LinkedListQueue` and a new array `Queue` return the same value at every call, none of the
calls raises, and at the end the linked queue's `size` field equals the array queue's
`size()`; as the sequence is arbitrary, so it does after every call. -/
theorem linkedListQueue_matches_queue {α : Type} (calls : List (QueueCall α)) :
    (runCalls LinkedListQueue.call calls (LinkedListQueue.new : LinkedListQueue α)).1
      = (runCalls Queue.call calls (Queue.new : Queue α)).1 ∧
    (∀ r ∈ (runCalls Queue.call calls (Queue.new : Queue α)).1, ∃ v, r = Result.ok v) ∧
    (runCalls LinkedListQueue.call calls (LinkedListQueue.new : LinkedListQueue α)).2.size
      = ((runCalls Queue.call calls (Queue.new : Queue α)).2.size : Int) := by
  obtain ⟨h1, h2, as1, h3⟩ := runCalls_simulation calls LinkedListQueue.new Queue.new []
    queueLinked_new
  exact ⟨h1, h2, h3.size⟩

/-! ## The two-stack queue and the singly linked list -/

/-- C19, at the failing input `S = [1]` on a new `TwoStackQueue`: `enqueue(1)` yields
`undefined`, not the new count `1`, stores nothing, and the `dequeue()` that follows yields
`undefined`, not `1`; both method bodies are empty. -/
theorem twoStackQueue_does_nothing :
    TwoStackQueue.enqueue (Val.of (1 : Int)) TwoStackQueue.new
      = (QueueRet.value Val.undefined, TwoStackQueue.new) ∧
    (TwoStackQueue.enqueue (Val.of (1 : Int)) TwoStackQueue.new).1 ≠ QueueRet.number 1 ∧
    (TwoStackQueue.dequeue (TwoStackQueue.enqueue (Val.of (1 : Int)) TwoStackQueue.new).2).1
      = QueueRet.value Val.undefined ∧
    (TwoStackQueue.dequeue (TwoStackQueue.enqueue (Val.of (1 : Int)) TwoStackQueue.new).2).1
      ≠ QueueRet.value (Val.of 1) := by
  refine ⟨by decide, by decide, by decide, by decide⟩

/-- C20, at the failing inputs `new SinglyLinkedList().isEmpty()` and
`new SinglyLinkedList().insertAtBackMany([1])`: `isEmpty` raises a `ReferenceError` on every
list (its body calls the undeclared `retun`), so it returns neither `true` nor `false`, and
`insertAtBack`, which calls it first, raises too: no list is built and `toArr()` of the list
left behind is `[]`, not `[1]`. -/
theorem singly_isEmpty_raises :
    (∀ l : SinglyLinkedList Int, (SinglyLinkedList.isEmpty l).1
      = Result.fault Fault.referenceError) ∧
    (SinglyLinkedList.isEmpty (SinglyLinkedList.new : SinglyLinkedList Int)).1
      ≠ Result.ok true ∧
    (SinglyLinkedList.isEmpty
      ({ store := [ListNode.mk 1 none], head := some 0 } : SinglyLinkedList Int)).1
      ≠ Result.ok false ∧
    (∀ (fuel : Nat) (x : Int) (xs : List Int) (l : SinglyLinkedList Int),
      (SinglyLinkedList.insertAtBackMany fuel (x :: xs) l).1
        = Result.fault Fault.referenceError) ∧
    (SinglyLinkedList.insertAtBackMany 2 [1] (SinglyLinkedList.new : SinglyLinkedList Int)).1
      = Result.fault Fault.referenceError ∧
    SinglyLinkedList.toArr 2
      (SinglyLinkedList.insertAtBackMany 2 [1] (SinglyLinkedList.new : SinglyLinkedList Int)).2
      = Result.ok (Ret.array []) := by
  refine ⟨fun _ => rfl, by decide, by decide, fun _ _ _ _ => rfl, by decide, by decide⟩
